import Mathlib

/-!
Verification of the og-rek pickle codec (github.com/kisielk/og-rek).

This file shallowly embeds the parts of the Go source that the claims
C1..C10 are about:

* the pickle `Decoder` (ogorek.go: `Decode`, its opcode handlers, `readLine`,
  `bufLoadBytesData`, `decodeLong`, `handleCall`, `decodeLatin1Bytes`, ...),
* the pickle `Encoder` (encode.go: `Encode`, `encodeInt`, `encodeBytes`,
  `encodeTuple`, `encodeClass`, ...),
* the Python-equality helpers of the Dict component (`kindOf`, `equal`,
  `eq_Int_Float` and friends, `hash`).

Go byte strings are modelled as `List Nat` (each element a byte value),
machine integers as `Nat`/`Int` with explicit wrap-around arithmetic, and
fallible operations as `Except`.  Reading from the buffered input stream is
modelled by a small reader-program type `RdM` interpreted against the
remaining input list; this mirrors the Go decoder, whose opcode handlers
first read all operand bytes and then update the decoder state purely.

IEEE-754 float64 values are modelled by their exact rational value where the
code observes the value (the Dict equality component) and by their raw bit
pattern or source text where the decoder merely transports them; the
int64 -> float64 conversion is modelled exactly (round to nearest, ties to
even), matching the Go specification.
-/

namespace Ogorek

/-! ## Byte-level utilities -/

/-- Decimal digits of a natural number as ASCII bytes (the Go `strconv.Itoa`
for non-negative values). -/
def natDec (n : Nat) : List Nat :=
  (Nat.toDigits 10 n).map Char.toNat

/-- ASCII decimal of an integer, with a leading minus sign for negatives
(the Go `%d` format verb for int64). -/
def intDec (i : Int) : List Nat :=
  if i < 0 then 45 :: natDec i.natAbs else natDec i.toNat

/-- Little-endian 4-byte encoding of `n % 2^32`. -/
def le32 (n : Nat) : List Nat :=
  [n % 256, n / 256 % 256, n / 65536 % 256, n / 16777216 % 256]

/-- Little-endian 8-byte encoding of `n % 2^64`. -/
def le64 (n : Nat) : List Nat :=
  le32 n ++ le32 (n / 4294967296)

/-- Big-endian 8-byte encoding of `n % 2^64` (used by BINFLOAT and by the
Dict hash, which writes `binary.BigEndian.PutUint64`). -/
def be64 (n : Nat) : List Nat :=
  [n / 72057594037927936 % 256, n / 281474976710656 % 256,
   n / 1099511627776 % 256, n / 4294967296 % 256,
   n / 16777216 % 256, n / 65536 % 256, n / 256 % 256, n % 256]

/-- Value of 4 little-endian bytes (the Go `binary.LittleEndian.Uint32`). -/
def leVal4 (b0 b1 b2 b3 : Nat) : Nat :=
  b0 + 256 * b1 + 65536 * b2 + 16777216 * b3

/-- Reinterpret `u % 2^32` as a signed 32-bit integer (the Go `int32(v)`
conversion from `uint32`). -/
def toInt32 (u : Nat) : Int :=
  if u % 4294967296 < 2147483648 then (u % 4294967296 : Int)
  else (u % 4294967296 : Int) - 4294967296

/-- Reinterpret an `Int` as Go `uint64` (two's complement, `uint64(i)`). -/
def toUint64 (i : Int) : Nat :=
  (i % 18446744073709551616).toNat

/-- Split a byte list at the first newline byte 10: returns the line without
the terminator together with the remainder after the terminator.  `none` when
no newline is present.  This models `bufio.Reader.ReadSlice('\n')` as used by
the decoder `readLine`, which consumes the terminator and reports `io.EOF`
when the input ends before a newline. -/
def splitLine : List Nat → Option (List Nat × List Nat)
  | [] => none
  | b :: s =>
    if b = 10 then some ([], s)
    else
      match splitLine s with
      | some (l, r) => some (b :: l, r)
      | none => none

/-! ## UTF-8 (the Go `unicode/utf8` package as used by the source)

`decRune` models `utf8.DecodeRuneInString`: it returns the decoded rune and
its width; invalid or truncated sequences give the replacement rune 0xFFFD
with width 1 (width 0 on empty input). -/

/-- Replacement rune `utf8.RuneError`. -/
def runeError : Nat := 65533

/-- Whether a byte is a UTF-8 continuation byte in the default accept range. -/
def isCont (b : Nat) : Bool := 128 ≤ b && b ≤ 191

/-- Lower bound of the accept range for the second byte, per Go
`utf8.acceptRanges` (index selected by the first byte). -/
def accLo (b0 : Nat) : Nat :=
  if b0 = 224 then 160 else if b0 = 240 then 144 else 128

/-- Upper bound of the accept range for the second byte, per Go
`utf8.acceptRanges`. -/
def accHi (b0 : Nat) : Nat :=
  if b0 = 237 then 159 else if b0 = 244 then 143 else 191

/-- Number of bytes of a UTF-8 sequence starting with `b0`; 0 for bytes that
cannot start a sequence (continuation bytes, 0xC0, 0xC1, ≥ 0xF5). -/
def seqLen (b0 : Nat) : Nat :=
  if b0 < 128 then 1
  else if 194 ≤ b0 && b0 ≤ 223 then 2
  else if 224 ≤ b0 && b0 ≤ 239 then 3
  else if 240 ≤ b0 && b0 ≤ 244 then 4
  else 0

/-- Model of `utf8.DecodeRuneInString`: rune value and width. -/
def decRune : List Nat → Nat × Nat
  | [] => (runeError, 0)
  | b0 :: rest =>
    match seqLen b0 with
    | 1 => (b0, 1)
    | 2 =>
      match rest with
      | b1 :: _ =>
        if accLo b0 ≤ b1 && b1 ≤ accHi b0 then ((b0 - 192) * 64 + (b1 - 128), 2)
        else (runeError, 1)
      | _ => (runeError, 1)
    | 3 =>
      match rest with
      | b1 :: b2 :: _ =>
        if (accLo b0 ≤ b1 && b1 ≤ accHi b0) && isCont b2 then
          ((b0 - 224) * 4096 + (b1 - 128) * 64 + (b2 - 128), 3)
        else (runeError, 1)
      | _ => (runeError, 1)
    | 4 =>
      match rest with
      | b1 :: b2 :: b3 :: _ =>
        if ((accLo b0 ≤ b1 && b1 ≤ accHi b0) && isCont b2) && isCont b3 then
          ((b0 - 240) * 262144 + (b1 - 128) * 4096 + (b2 - 128) * 64 + (b3 - 128), 4)
        else (runeError, 1)
      | _ => (runeError, 1)
    | _ => (runeError, 1)

/-- UTF-8 encoding of a rune (the Go `utf8.EncodeRune` / `WriteRune`
behaviour: surrogates and out-of-range values encode as the replacement
rune). -/
def encRune (r : Nat) : List Nat :=
  if r < 128 then [r]
  else if r < 2048 then [192 + r / 64, 128 + r % 64]
  else if 55296 ≤ r && r ≤ 57343 then [239, 191, 189]
  else if r < 65536 then [224 + r / 4096, 128 + r / 64 % 64, 128 + r % 64]
  else if r ≤ 1114111 then
    [240 + r / 262144, 128 + r / 4096 % 64, 128 + r / 64 % 64, 128 + r % 64]
  else [239, 191, 189]

/-- UTF-8 encoding of a list of runes (Go `string([]rune)`). -/
def encRunes (rs : List Nat) : List Nat :=
  rs.flatMap encRune

/-- Inner loop for `runesOf`, with explicit fuel (the scan consumes at least
one byte per step, so fuel `s.length` is always sufficient). -/
def runesOfAux : Nat → List Nat → List Nat
  | 0, _ => []
  | _, [] => []
  | fuel + 1, s =>
    let rw := decRune s
    rw.1 :: runesOfAux fuel (s.drop (max rw.2 1))

/-- The runes of a Go string, as produced by `for _, r := range s`:
invalid bytes yield the replacement rune and advance by one byte. -/
def runesOf (s : List Nat) : List Nat :=
  runesOfAux s.length s

/-! ## The decoder value model (ogorek.go)

`Value` is the universe of Go values the decoder stores on its stack:
the `mark` sentinel, `None`, `bool`, `int64`, `*big.Int`, `float64`,
`string`, `Bytes`, `[]byte` (from bytearray), `Tuple`, `[]interface{}`,
`map[interface{}]interface{}`, `Class`, `Call` and `Ref`.

float64 values are carried either as the raw bit pattern (BINFLOAT) or the
exact rational value of the parsed text (FLOAT); no claim under verification
compares float values originating from different opcodes, so the common
IEEE-754 rounding of the two is not modelled.

The Go map is modelled as an association list in insertion order; Go
compares `*big.Int` keys by pointer identity, which a pure value model
cannot express - each decoded long is a distinct pointer, so `goEq` on
bigint values is `false` (no claim depends on re-using one pointer via the
memo as a repeated dict key). -/

/-- Float64 as observed by the decoder. -/
inductive F64 where
  | bits (n : Nat)
  | dec (q : ℚ)
  | inf (neg : Bool)
  | nanV
  deriving DecidableEq, Repr

/-- The decoder value universe. -/
inductive Value where
  | mark
  | none
  | bool (b : Bool)
  | int (i : Int)
  | bigint (z : Int)
  | float (f : F64)
  | str (s : List Nat)
  | bytes (s : List Nat)
  | bytearray (s : List Nat)
  | tuple (vs : List Value)
  | list (vs : List Value)
  | dict (m : List (Value × Value))
  | class_ (module name : List Nat)
  | call (module name : List Nat) (args : List Value)
  | ref (pid : Value)

/-- Error values of `decodeLatin1Bytes` (`latin1: arg must be string`,
`latin1: cannot encode %q`). -/
inductive LatinErr where
  | notString
  | cannotEncode (r : Nat)
  deriving DecidableEq, Repr

/-- Decoder errors.  Each constructor corresponds to one error value or
`fmt.Errorf` site of ogorek.go; messages are not reproduced textually. -/
inductive Err where
  | eof
  | unexpectedEOF
  | outOfFuel
  | opcode (key pos : Nat)
  | notImplemented
  | invalidPickleVersion
  | noMarker
  | noMarkUse
  | stackUnderflow
  | parseIntSyntax
  | parseIntRange
  | parseFloatSyntax
  | strconvSyntax
  | loadLongInvalid
  | invalidStringDelim (b : Nat)
  | codecsEncode (inner : LatinErr)
  | bytearrayWantBytes
  | bytearrayLatin (inner : LatinErr)
  | reduceInvalidArgs
  | reduceInvalidClass
  | appendNotList
  | appendsNotList
  | dictOddElements
  | setitemsOddElements
  | invalidKeyType
  | setitemNotMap
  | setitemsNotMap
  | memoKeyError (k : List Nat)
  | stackGlobalBadName
  | stackGlobalBadModule
  | sizeOverMaxInt64
  | nextBufferNoOOB
  | readOnlyBufferNotBuffer
  | unicodeRemaining
  | panicked
  deriving DecidableEq, Repr

/-- Decoder state: operand stack (top first), memo (association list keyed
by the decimal-string memo key), and the protocol version set by PROTO. -/
structure DState where
  stack : List Value
  memo : List (List Nat × Value)
  protocol : Nat

/-- The initial state of a fresh decoder (`NewDecoder`). -/
def initState : DState := ⟨[], [], 0⟩

/-! ## Reader programs

Every opcode handler of the Go decoder first reads all its operand bytes
and only then updates the decoder state purely.  The reading part is
modelled by a small program type `RdM` interpreted against the remaining
input; `readFull` models `io.ReadFull` (zero bytes read gives `io.EOF`,
a partial read `io.ErrUnexpectedEOF`), `copyN` models `io.CopyN` (any
shortage gives `io.EOF`), `readLine` models `readLine` over
`bufio.Reader.ReadSlice` (`io.EOF` when the input ends before a newline),
and `readByte` models `bufio.Reader.ReadByte`. -/

inductive RdM (α : Type) where
  | pure (a : α)
  | fail (e : Err)
  | readByte (k : Nat → RdM α)
  | readFull (n : Nat) (k : List Nat → RdM α)
  | copyN (n : Nat) (k : List Nat → RdM α)
  | readLine (k : List Nat → RdM α)

/-- Interpret a reader program against the remaining input. -/
def run {α : Type} : RdM α → List Nat → Except Err (α × List Nat)
  | .pure a, s => .ok (a, s)
  | .fail e, _ => .error e
  | .readByte _, [] => .error .eof
  | .readByte k, b :: s => run (k b) s
  | .readFull n k, s =>
    if n ≤ s.length then run (k (s.take n)) (s.drop n)
    else .error (if s.isEmpty then .eof else .unexpectedEOF)
  | .copyN n k, s =>
    if n ≤ s.length then run (k (s.take n)) (s.drop n)
    else .error .eof
  | .readLine k, s =>
    match splitLine s with
    | some (l, r) => run (k l) r
    | Option.none => .error .eof

/-- Read `n` bytes one at a time (`d.r.ReadByte()` in a loop, as done by
`loadBinUnicode` and `loadLong1`). -/
def readBytesN {α : Type} : Nat → (List Nat → RdM α) → RdM α
  | 0, k => k []
  | n + 1, k => .readByte fun b => readBytesN n fun bs => k (b :: bs)

/-! ## Text parsing helpers (the `strconv` / `math/big` calls of the source) -/

/-- Decimal digit value of an ASCII byte. -/
def digitVal? (b : Nat) : Option Nat :=
  if 48 ≤ b && b ≤ 57 then some (b - 48) else Option.none

/-- Value of a non-empty all-digit byte list; `none` otherwise. -/
def digitsVal? : List Nat → Option Nat
  | [] => Option.none
  | [b] => digitVal? b
  | b :: rest =>
    match digitVal? b, digitsVal? rest with
    | some d, some n => some (d * 10 ^ rest.length + n)
    | _, _ => Option.none

/-- Model of `strconv.ParseInt(s, 10, 64)`: optional sign, non-empty decimal
digits, signed 64-bit range check. -/
def parseInt64 (s : List Nat) : Except Err Int :=
  match s with
  | [] => .error .parseIntSyntax
  | c :: rest =>
    let signed : Bool × List Nat :=
      if c = 43 then (false, rest) else if c = 45 then (true, rest) else (false, s)
    match digitsVal? signed.2 with
    | Option.none => .error .parseIntSyntax
    | some n =>
      let v : Int := if signed.1 then -(n : Int) else (n : Int)
      if v < -9223372036854775808 ∨ 9223372036854775807 < v then .error .parseIntRange
      else .ok v

/-- Model of `big.Int.SetString(s, 10)`: optional sign, non-empty decimal
digits, arbitrary precision.  `none` models `ok == false`. -/
def parseBig? (s : List Nat) : Option Int :=
  match s with
  | [] => Option.none
  | c :: rest =>
    let signed : Bool × List Nat :=
      if c = 43 then (false, rest) else if c = 45 then (true, rest) else (false, s)
    match digitsVal? signed.2 with
    | Option.none => Option.none
    | some n => some (if signed.1 then -(n : Int) else (n : Int))

/-- ASCII lower-casing of a byte (for the case-insensitive special float
forms recognized by `strconv.ParseFloat`). -/
def lowerB (b : Nat) : Nat :=
  if 65 ≤ b && b ≤ 90 then b + 32 else b

/-- Model of `strconv.ParseFloat(s, 64)`.  The decimal grammar (optional
sign, digits with optional fraction and exponent) and the special inf/nan
forms are modelled; the value is kept as the exact rational of the literal
(the final IEEE-754 rounding is not observed by any claim under
verification; hexadecimal float literals and the overflow-to-infinity range
error are not modelled). -/
def parseFloatGo (s : List Nat) : Except Err F64 :=
  match s with
  | [] => .error .parseFloatSyntax
  | c :: rest =>
    let signed : Bool × List Nat :=
      if c = 43 then (false, rest) else if c = 45 then (true, rest) else (false, s)
    let body := signed.2.map lowerB
    if body = [105, 110, 102] ∨ body = [105, 110, 102, 105, 110, 105, 116, 121] then
      .ok (.inf signed.1)
    else if body = [110, 97, 110] then
      .ok .nanV
    else
      let ip := signed.2.takeWhile (fun b => 48 ≤ b && b ≤ 57)
      let rest1 := signed.2.dropWhile (fun b => 48 ≤ b && b ≤ 57)
      let frac : Option (List Nat × List Nat) :=
        match rest1 with
        | 46 :: r =>
          some (r.takeWhile (fun b => 48 ≤ b && b ≤ 57),
                r.dropWhile (fun b => 48 ≤ b && b ≤ 57))
        | _ => some ([], rest1)
      match frac with
      | Option.none => .error .parseFloatSyntax
      | some (fp, rest2) =>
        if ip.length + fp.length = 0 then .error .parseFloatSyntax
        else
          let mant : ℚ :=
            ((ip ++ fp).foldl (fun acc b => acc * 10 + ((b - 48 : Nat) : ℚ)) (0 : ℚ)) / 10 ^ fp.length
          let withExp : Except Err ℚ :=
            match rest2 with
            | [] => .ok mant
            | e :: r =>
              if e = 101 ∨ e = 69 then
                match r with
                | [] => .error .parseFloatSyntax
                | d :: r2 =>
                  let esigned : Bool × List Nat :=
                    if d = 43 then (false, r2) else if d = 45 then (true, r2) else (false, r)
                  match digitsVal? esigned.2 with
                  | Option.none => .error .parseFloatSyntax
                  | some ev =>
                    .ok (if esigned.1 then mant / 10 ^ ev else mant * 10 ^ ev)
              else .error .parseFloatSyntax
          match withExp with
          | .error e => .error e
          | .ok q => .ok (.dec (if signed.1 then -q else q))

/-- Hexadecimal digit value of an ASCII byte. -/
def hexVal? (b : Nat) : Option Nat :=
  if 48 ≤ b && b ≤ 57 then some (b - 48)
  else if 97 ≤ b && b ≤ 102 then some (b - 87)
  else if 65 ≤ b && b ≤ 70 then some (b - 55)
  else Option.none

/-- Octal digit value of an ASCII byte. -/
def octVal? (b : Nat) : Option Nat :=
  if 48 ≤ b && b ≤ 55 then some (b - 48) else Option.none

/-- Value of a fixed-width hex run; `none` if too short or non-hex. -/
def hexRun? : Nat → List Nat → Option (Nat × List Nat)
  | 0, s => some (0, s)
  | _ + 1, [] => Option.none
  | n + 1, b :: s =>
    match hexVal? b with
    | some d =>
      match hexRun? n s with
      | some (v, r) => some (d * 16 ^ n + v, r)
      | Option.none => Option.none
    | Option.none => Option.none

/-- Model of `strconv.UnquoteChar` restricted to the single-byte escapes
reachable from `pydecodeStringEscape` (`\a \b \f \n \r \t \v`, three-digit
octal, `\xHH`); the input starts just after the backslash. -/
def unquoteByteEsc : List Nat → Except Err (Nat × List Nat)
  | [] => .error .strconvSyntax
  | c :: s =>
    if c = 97 then .ok (7, s)
    else if c = 98 then .ok (8, s)
    else if c = 102 then .ok (12, s)
    else if c = 110 then .ok (10, s)
    else if c = 114 then .ok (13, s)
    else if c = 116 then .ok (9, s)
    else if c = 118 then .ok (11, s)
    else if c = 120 then
      match hexRun? 2 s with
      | some (v, r) => .ok (v, r)
      | Option.none => .error .strconvSyntax
    else
      match octVal? c, s with
      | some d1, c2 :: c3 :: r =>
        match octVal? c2, octVal? c3 with
        | some d2, some d3 =>
          let v := d1 * 64 + d2 * 8 + d3
          if 255 < v then .error .strconvSyntax else .ok (v, r)
        | _, _ => .error .strconvSyntax
      | _, _ => .error .strconvSyntax

/-- Whether a byte is one of the escape letters `b f t n r v a`. -/
def isEscCtl (b : Nat) : Bool :=
  b = 98 || b = 102 || b = 116 || b = 110 || b = 114 || b = 118 || b = 97

/-- Whether a byte is an ASCII octal digit. -/
def isOct (b : Nat) : Bool := 48 ≤ b && b ≤ 55

/-- Inner loop of `pydecodeStringEscape`, with fuel (each step consumes at
least one input byte, so fuel `s.length` always suffices; the fuel-exhausted
arm is unreachable from `pydecodeStringEscape`). -/
def pydecodeStringEscapeAux : Nat → List Nat → Except Err (List Nat)
  | 0, _ => .ok []
  | _, [] => .ok []
  | fuel + 1, b :: rest =>
    if b ≠ 92 then
      (pydecodeStringEscapeAux fuel rest).map (b :: ·)
    else
      match rest with
      | [] => .error .strconvSyntax
      | c :: rest2 =>
        if c = 10 then pydecodeStringEscapeAux fuel rest2
        else if c = 92 then (pydecodeStringEscapeAux fuel rest2).map (92 :: ·)
        else if c = 39 ∨ c = 34 then (pydecodeStringEscapeAux fuel rest2).map (c :: ·)
        else if isEscCtl c || isOct c || c = 120 then
          match unquoteByteEsc (c :: rest2) with
          | .error e => .error e
          | .ok (v, tail) =>
            if 255 < v then .error .panicked
            else (pydecodeStringEscapeAux fuel tail).map (v :: ·)
        else
          (pydecodeStringEscapeAux fuel (c :: rest2)).map (92 :: ·)

/-- Model of `pydecodeStringEscape` (the Python string-escape codec used by
the STRING opcode).  Non-backslash bytes are copied verbatim; `\<LF>` is
dropped; `\\ \' \"` unescape; the known single-byte escapes go through
`strconv.UnquoteChar`; an unknown escape emits the backslash literally. -/
def pydecodeStringEscape (s : List Nat) : Except Err (List Nat) :=
  pydecodeStringEscapeAux s.length s

/-- Model of the `\uHHHH` / `\UHHHHHHHH` arm of `strconv.UnquoteChar` as
used by `pydecodeRawUnicodeEscape`; the input starts just after the
backslash, `c` is `u` or `U`.  Surrogates and out-of-range values are
rejected (`utf8.ValidRune`). -/
def unquoteUniEsc (c : Nat) (s : List Nat) : Except Err (Nat × List Nat) :=
  match hexRun? (if c = 117 then 4 else 8) s with
  | Option.none => .error .strconvSyntax
  | some (v, r) =>
    if (55296 ≤ v && v ≤ 57343) || 1114111 < v then .error .strconvSyntax
    else .ok (v, r)

/-- Inner loop of `pydecodeRawUnicodeEscape`: accumulates output runes,
tracking the number of immediately preceding backslashes (`nescape`).
Fuelled; each step consumes at least one byte. -/
def pydecodeRawUnicodeEscapeAux : Nat → Nat → List Nat → Except Err (List Nat)
  | 0, _, _ => .ok []
  | _, _, [] => .ok []
  | fuel + 1, nescape, b :: rest =>
    if b ≠ 92 then
      (pydecodeRawUnicodeEscapeAux fuel 0 rest).map (b :: ·)
    else
      let ne := nescape + 1
      if ne % 2 = 0 ∨ rest = [] then
        (pydecodeRawUnicodeEscapeAux fuel ne rest).map (92 :: ·)
      else
        match rest with
        | [] => .ok [92]
        | c :: rest2 =>
          if c = 117 ∨ c = 85 then
            match unquoteUniEsc c rest2 with
            | .error e => .error e
            | .ok (r, tail) => (pydecodeRawUnicodeEscapeAux fuel 0 tail).map (r :: ·)
          else
            (pydecodeRawUnicodeEscapeAux fuel ne (c :: rest2)).map (92 :: ·)

/-- Model of `pydecodeRawUnicodeEscape` (the raw-unicode-escape codec used
by the UNICODE opcode): non-escape bytes map to their code point, a
backslash introduces `\u`/`\U` only when preceded by an even number of
backslashes, and the resulting runes are UTF-8 encoded (`string(out)`). -/
def pydecodeRawUnicodeEscape (s : List Nat) : Except Err (List Nat) :=
  (pydecodeRawUnicodeEscapeAux s.length 0 s).map encRunes

/-! ## `decodeLong` (little-endian two's-complement big integer) -/

/-- Value of little-endian bytes: the accumulation loop of `decodeLong`. -/
def leValN : List Nat → Nat
  | [] => 0
  | b :: rest => b + 256 * leValN rest

/-- Minimal big-endian bytes of a natural number (`big.Int.Bytes`). -/
def natBytesBEAux : Nat → Nat → List Nat
  | 0, _ => []
  | _, 0 => []
  | fuel + 1, n => natBytesBEAux fuel (n / 256) ++ [n % 256]

/-- Minimal big-endian bytes of a natural number (`big.Int.Bytes`): empty
for zero, no leading zero byte otherwise. -/
def natBytesBE (n : Nat) : List Nat := natBytesBEAux n n

/-- Value of big-endian bytes (`big.Int.SetBytes`). -/
def beValN : List Nat → Nat
  | [] => 0
  | b :: rest => b * 256 ^ rest.length + beValN rest

/-- Model of `decodeLong`: little-endian two's-complement bytes to integer.
The source accumulates the unsigned value and, when the top byte exceeds
127, subtracts one, flips the minimal big-endian byte representation, and
negates; this function follows that structure. -/
def decodeLong (data : List Nat) : Int :=
  match data with
  | [] => 0
  | _ =>
    let raw : Nat := leValN data
    let negative : Bool := data.getLast! > 127
    if negative then
      let flipped := (natBytesBE (raw - 1)).map (fun b => 255 - b);
      -(beValN flipped : Int)
    else
      (raw : Int)

/-! ## Stack and memo operations -/

/-- Whether a stack slot holds the mark sentinel (`d.stack[k] == mark{}`). -/
def isMark : Value → Bool
  | .mark => true
  | _ => false

/-- `userOK` for a single object: the mark object must not be exposed. -/
def userOK1 (v : Value) : Except Err Unit :=
  if isMark v then .error .noMarkUse else .ok ()

/-- `pop`: top of stack and remainder, or stack underflow. -/
def popV : List Value → Except Err (Value × List Value)
  | [] => .error .stackUnderflow
  | v :: rest => .ok (v, rest)

/-- `popUser`: pop and check the value may be returned to the user. -/
def popUserV (stk : List Value) : Except Err (Value × List Value) :=
  match popV stk with
  | .error e => .error e
  | .ok (v, rest) =>
    match userOK1 v with
    | .error e => .error e
    | .ok _ => .ok (v, rest)

/-- Split the stack at the topmost mark (`marker`): the values above it in
top-first order, and the values below it.  `none` when no mark is present
(`errNoMarker`). -/
def splitMark : List Value → Option (List Value × List Value)
  | [] => Option.none
  | v :: rest =>
    if isMark v then some ([], rest)
    else
      match splitMark rest with
      | some (above, below) => some (v :: above, below)
      | Option.none => Option.none

/-- Go map-key hashability of a value.  `mapTryAssign` detects unhashable
keys via panic/recover; hashing panics exactly on values containing a
slice, map or function - for this universe: tuples, lists, dicts, byte
arrays, and `Call` (whose `Args` field is a slice); `Ref` panics iff its
dynamic `Pid` value is unhashable. -/
def hashableKey : Value → Bool
  | .tuple _ | .list _ | .dict _ | .bytearray _ => false
  | .call _ _ _ => false
  | .ref pid => hashableKey pid
  | _ => true

/-- Go `==` on hashable values, used for map overwrite semantics.  Two
`*big.Int` pointers produced by decoding are always distinct, so they never
compare equal; float equality across the textual and binary representations
is not modelled, and float keys compare by exact representation, which
diverges from Go interface `==` on NaN keys (Go: never equal, so a map can
hold several NaN entries) and on `+0`/`-0` (Go: equal).  No theorem in
this development observes dict contents for such keys. -/
def goEq : Value → Value → Bool
  | .mark, .mark => true
  | .none, .none => true
  | .bool a, .bool b => a = b
  | .int a, .int b => a = b
  | .bigint _, .bigint _ => false
  | .float (.bits a), .float (.bits b) => a = b
  | .float (.dec a), .float (.dec b) => a = b
  | .str a, .str b => a = b
  | .bytes a, .bytes b => a = b
  | .class_ m1 n1, .class_ m2 n2 => m1 = m2 && n1 = n2
  | .ref a, .ref b => goEq a b
  | _, _ => false

/-- Assignment `m[k] = v` on the association-list model of the Go map:
an existing equal key keeps its spelling and takes the new value. -/
def mapSet : List (Value × Value) → Value → Value → List (Value × Value)
  | [], k, v => [(k, v)]
  | (k0, v0) :: rest, k, v =>
    if goEq k0 k then (k0, v) :: rest else (k0, v0) :: mapSet rest k v

/-- `mapTryAssign`: `none` when the key is not hashable (the recovered
runtime panic), otherwise the updated map. -/
def mapTryAssign (m : List (Value × Value)) (k v : Value) : Option (List (Value × Value)) :=
  if hashableKey k then some (mapSet m k v) else Option.none

/-- Assign a bottom-to-top sequence of key/value stack items into a map
(the loops of `loadDict` / `loadSetItems`). -/
def mapAssignPairs : List (Value × Value) → List Value → Option (List (Value × Value))
  | m, [] => some m
  | m, k :: v :: rest =>
    match mapTryAssign m k v with
    | some m2 => mapAssignPairs m2 rest
    | Option.none => Option.none
  | _, [_] => Option.none

/-- Memo lookup (`d.memo[key]`). -/
def memoGet? : List (List Nat × Value) → List Nat → Option Value
  | [], _ => Option.none
  | (k0, v0) :: rest, k => if k0 = k then some v0 else memoGet? rest k

/-- Memo store (`d.memo[key] = obj`; Go map assign). -/
def memoSet : List (List Nat × Value) → List Nat → Value → List (List Nat × Value)
  | [], k, v => [(k, v)]
  | (k0, v0) :: rest, k, v =>
    if k0 = k then (k0, v) :: rest else (k0, v0) :: memoSet rest k v

/-- `memoTop`: store the top of the stack into `memo[key]`; the stack is
unchanged; a mark on top is a mark-escape error. -/
def memoTop (key : List Nat) (st : DState) : Except Err DState :=
  match st.stack with
  | [] => .error .stackUnderflow
  | v :: _ =>
    match userOK1 v with
    | .error e => .error e
    | .ok _ => .ok { st with memo := memoSet st.memo key v }

/-! ## Opcode constants (byte values from ogorek.go) -/

def opMark : Nat := 40
def opStop : Nat := 46
def opPop : Nat := 48
def opPopMark : Nat := 49
def opDup : Nat := 50
def opFloat : Nat := 70
def opInt : Nat := 73
def opBinint : Nat := 74
def opBinint1 : Nat := 75
def opLong : Nat := 76
def opBinint2 : Nat := 77
def opNone : Nat := 78
def opPersid : Nat := 80
def opBinpersid : Nat := 81
def opReduce : Nat := 82
def opString : Nat := 83
def opBinstring : Nat := 84
def opShortBinstring : Nat := 85
def opUnicode : Nat := 86
def opBinunicode : Nat := 88
def opAppend : Nat := 97
def opBuild : Nat := 98
def opGlobal : Nat := 99
def opDict : Nat := 100
def opAppends : Nat := 101
def opGet : Nat := 103
def opBinget : Nat := 104
def opInst : Nat := 105
def opLongBinget : Nat := 106
def opList : Nat := 108
def opObj : Nat := 111
def opPut : Nat := 112
def opBinput : Nat := 113
def opLongBinput : Nat := 114
def opSetitem : Nat := 115
def opTuple : Nat := 116
def opSetitems : Nat := 117
def opEmptyList : Nat := 93
def opEmptyTuple : Nat := 41
def opEmptyDict : Nat := 125
def opBinfloat : Nat := 71
def opProto : Nat := 128
def opTuple1 : Nat := 133
def opTuple2 : Nat := 134
def opTuple3 : Nat := 135
def opNewtrue : Nat := 136
def opNewfalse : Nat := 137
def opLong1 : Nat := 138
def opBinbytes : Nat := 66
def opShortBinbytes : Nat := 67
def opShortBinUnicode : Nat := 140
def opStackGlobal : Nat := 147
def opMemoize : Nat := 148
def opFrame : Nat := 149
def opBytearray8 : Nat := 150
def opNextBuffer : Nat := 151
def opReadOnlyBuffer : Nat := 152

/-! ## Module/name byte strings used by `handleCall` and the encoder -/

def sCodecs : List Nat := [95, 99, 111, 100, 101, 99, 115]
def sEncode : List Nat := [101, 110, 99, 111, 100, 101]
def sLatin1 : List Nat := [108, 97, 116, 105, 110, 49]
def sLatin1Dash : List Nat := [108, 97, 116, 105, 110, 45, 49]
def sBuiltinPy2 : List Nat := [95, 95, 98, 117, 105, 108, 116, 105, 110, 95, 95]
def sBuiltinPy3 : List Nat := [98, 117, 105, 108, 116, 105, 110, 115]
def sBytearray : List Nat := [98, 121, 116, 101, 97, 114, 114, 97, 121]

/-- `pybuiltin`: module of a Python builtin for the given protocol
(`__builtin__` for protocol ≤ 2, `builtins` otherwise). -/
def pybuiltinModule (protocol : Nat) : List Nat :=
  if protocol ≤ 2 then sBuiltinPy2 else sBuiltinPy3

/-! ## `decodeLatin1Bytes` and `handleCall` -/

/-- Inner loop of `decodeLatin1Bytes`: iterate the runes of the string;
a rune ≥ 0x100 cannot be latin1-encoded.  Fuelled; each step consumes at
least one byte. -/
def latin1OfAux : Nat → List Nat → Except LatinErr (List Nat)
  | 0, _ => .ok []
  | _, [] => .ok []
  | fuel + 1, s =>
    let rw := decRune s
    if 256 ≤ rw.1 then .error (.cannotEncode rw.1)
    else (latin1OfAux fuel (s.drop (max rw.2 1))).map (rw.1 :: ·)

/-- Model of `decodeLatin1Bytes`: the argument must be a Go string, and
every rune must be below 0x100; the result is one byte per rune. -/
def decodeLatin1Bytes : Value → Except LatinErr (List Nat)
  | .str s => latin1OfAux s.length s
  | _ => .error .notString

/-- Go interface equality of a value against a string constant
(`argv[1] == "latin1"`): true only when the dynamic type is `string` and
the octets agree. -/
def isStrEq (v : Value) (s : List Nat) : Bool :=
  match v with
  | .str t => t = s
  | _ => false

/-- Model of `handleCall`: translate known Python calls to Go objects.
`some (.ok v)` means handled with result `v`; `some (.error e)` means
handled but failing; `none` models `errCallNotHandled` (the caller pushes
a symbolic `Call`). -/
def handleCall (protocol : Nat) (cm cn : List Nat) (argv : List Value) :
    Option (Except Err Value) :=
  -- _codecs.encode(text, "latin1") -> Bytes
  if cm = sCodecs ∧ cn = sEncode ∧ argv.length = 2 ∧
      isStrEq (argv.getD 1 .none) sLatin1 then
    some (match decodeLatin1Bytes (argv.getD 0 .none) with
      | .error e => .error (.codecsEncode e)
      | .ok data => .ok (.bytes data))
  else if cm = pybuiltinModule protocol ∧ cn = sBytearray then
    match argv with
    -- bytearray(bytes(...))
    | [a0] =>
      some (match a0 with
        | .bytes data => .ok (.bytearray data)
        | _ => .error .bytearrayWantBytes)
    -- bytearray(unicode, "latin-1")
    | [a0, a1] =>
      if isStrEq a1 sLatin1Dash then
        some (match decodeLatin1Bytes a0 with
          | .error e => .error (.bytearrayLatin e)
          | .ok data => .ok (.bytearray data))
      else Option.none
    | _ => Option.none
  else Option.none

/-! ## Opcode handlers

Each Go handler reads its operand bytes and then updates the decoder state
purely.  The reading part is the `RdM` program below (producing a list of
byte chunks); the state update is the `app...` function.  Chunk shapes not
producible by the paired reader fall into an unreachable `.panicked` arm. -/

/-- Chunks of operand bytes produced by a handler's reads. -/
abbrev Chunks := List (List Nat)

def rdNone : RdM Chunks := .pure []

def rdByte : RdM Chunks := .readByte fun b => .pure [[b]]

def rdFull (n : Nat) : RdM Chunks := .readFull n fun bs => .pure [bs]

def rdLine : RdM Chunks := .readLine fun l => .pure [l]

def rdLine2 : RdM Chunks := .readLine fun a => .readLine fun b => .pure [a, b]

/-- `u8 length + CopyN data` (`bufLoadShortBinBytes`, `loadShortBinUnicode`). -/
def rdCounted1 : RdM Chunks := .readByte fun b => .copyN b fun bs => .pure [bs]

/-- `LE32 length + CopyN data` (`bufLoadBinData4`). -/
def rdCounted4 : RdM Chunks :=
  .readFull 4 fun lb => .copyN (leValN lb) fun bs => .pure [bs]

/-- `LE64 length + CopyN data` (`bufLoadBinData8`).  The model renders the
source's `size([]data) > maxint64` check as a clean pre-read error; in the
Go code that check is dead, because `bufLoadBytesData` first calls
`buf.Grow(int(l))`, which panics for `l ≥ 2^63` before the comparison
runs.  No theorem in this development reaches a length that large, so the
divergence is unobservable here. -/
def rdCounted8 : RdM Chunks :=
  .readFull 8 fun lb =>
    if 9223372036854775807 < leValN lb then .fail .sizeOverMaxInt64
    else .copyN (leValN lb) fun bs => .pure [bs]

/-- Reads of `loadBinUnicode`: four single bytes accumulated by bitwise or
into a signed 32-bit length, then that many single-byte reads; a negative
length reads nothing. -/
def rdBinUnicode : RdM Chunks :=
  .readByte fun b0 => .readByte fun b1 => .readByte fun b2 => .readByte fun b3 =>
    let u := Nat.lor (Nat.lor (Nat.lor b0 (b1 <<< 8)) (b2 <<< 16)) ((b3 <<< 24) % 4294967296)
    readBytesN (toInt32 u).toNat fun bs => .pure [bs]

/-- Reads of `loadLong1`: u8 length via `decodeLong` (a length byte above
127 decodes negative, so no payload is read), then single-byte reads. -/
def rdLong1 : RdM Chunks :=
  .readByte fun b =>
    readBytesN (decodeLong [b]).toNat fun bs => .pure [bs]

/-- Push a value. -/
def pushV (v : Value) (st : DState) : DState := { st with stack := v :: st.stack }

def appMark (_ : Chunks) (st : DState) : Except Err DState := .ok (pushV .mark st)

/-- POP discards the top of the stack (`_, err = d.pop()`). -/
def appPop (_ : Chunks) (st : DState) : Except Err DState :=
  match st.stack with
  | [] => .error .stackUnderflow
  | _ :: rest => .ok { st with stack := rest }

/-- POP_MARK: `popMark` itself returns `errNotImplemented`, but the call
site `case opPopMark: d.popMark()` discards the returned error, so the
opcode is a silent no-op: the stack is unchanged and decoding continues. -/
def appPopMark (_ : Chunks) (st : DState) : Except Err DState := .ok st

def appDup (_ : Chunks) (st : DState) : Except Err DState :=
  match st.stack with
  | [] => .error .stackUnderflow
  | v :: rest => .ok { st with stack := v :: v :: rest }

def appFloat (chunks : Chunks) (st : DState) : Except Err DState :=
  match chunks with
  | [l] =>
    match parseFloatGo l with
    | .error e => .error e
    | .ok f => .ok (pushV (.float f) st)
  | _ => .error .panicked

/-- INT: the lines `00` and `01` push booleans, anything else parses as a
signed 64-bit decimal. -/
def appInt (chunks : Chunks) (st : DState) : Except Err DState :=
  match chunks with
  | [l] =>
    if l = [48, 48] then .ok (pushV (.bool false) st)
    else if l = [48, 49] then .ok (pushV (.bool true) st)
    else
      match parseInt64 l with
      | .error e => .error e
      | .ok i => .ok (pushV (.int i) st)
  | _ => .error .panicked

def appBinint (chunks : Chunks) (st : DState) : Except Err DState :=
  match chunks with
  | [bs] => .ok (pushV (.int (toInt32 (leValN bs))) st)
  | _ => .error .panicked

def appBinint1 (chunks : Chunks) (st : DState) : Except Err DState :=
  match chunks with
  | [[b]] => .ok (pushV (.int b) st)
  | _ => .error .panicked

/-- LONG: the line must end in `L`; the rest parses by `big.Int.SetString`. -/
def appLong (chunks : Chunks) (st : DState) : Except Err DState :=
  match chunks with
  | [l] =>
    if l.length < 1 ∨ l.getLast! ≠ 76 then .error .unexpectedEOF
    else
      match parseBig? l.dropLast with
      | Option.none => .error .loadLongInvalid
      | some z => .ok (pushV (.bigint z) st)
  | _ => .error .panicked

def appLong1 (chunks : Chunks) (st : DState) : Except Err DState :=
  match chunks with
  | [payload] => .ok (pushV (.bigint (decodeLong payload)) st)
  | _ => .error .panicked

def appBinint2 (chunks : Chunks) (st : DState) : Except Err DState :=
  match chunks with
  | [bs] => .ok (pushV (.int (leValN bs)) st)
  | _ => .error .panicked

def appNone (_ : Chunks) (st : DState) : Except Err DState := .ok (pushV .none st)

/-- PERSID with the default configuration (`PersistentLoad` nil): the
reference is pushed as is, with the line as a string pid. -/
def appPersid (chunks : Chunks) (st : DState) : Except Err DState :=
  match chunks with
  | [l] => .ok (pushV (.ref (.str l)) st)
  | _ => .error .panicked

/-- BINPERSID: pop the pid (mark may not escape) and push the reference. -/
def appBinpersid (_ : Chunks) (st : DState) : Except Err DState :=
  match popUserV st.stack with
  | .error e => .error e
  | .ok (pid, rest) => .ok { st with stack := .ref pid :: rest }

def appReduce (_ : Chunks) (st : DState) : Except Err DState :=
  match st.stack with
  | xargs :: xclass :: rest =>
    match xargs with
    | .tuple args =>
      match xclass with
      | .class_ cm cn =>
        match handleCall st.protocol cm cn args with
        | some (.ok v) => .ok { st with stack := v :: rest }
        | some (.error e) => .error e
        | Option.none => .ok { st with stack := .call cm cn args :: rest }
      | _ => .error .reduceInvalidClass
    | _ => .error .reduceInvalidArgs
  | _ => .error .stackUnderflow

/-- STRING: quoted line; both delimiters accepted; the body goes through
the string-escape codec. -/
def appString (chunks : Chunks) (st : DState) : Except Err DState :=
  match chunks with
  | [l] =>
    if l.length < 2 then .error .unexpectedEOF
    else
      match l with
      | d :: _ =>
        if d = 39 ∨ d = 34 then
          if l.getLast! ≠ d then .error .unexpectedEOF
          else
            match pydecodeStringEscape (l.drop 1).dropLast with
            | .error e => .error e
            | .ok bs => .ok (pushV (.str bs) st)
        else .error (.invalidStringDelim d)
      | [] => .error .unexpectedEOF
  | _ => .error .panicked

def appBinstring (chunks : Chunks) (st : DState) : Except Err DState :=
  match chunks with
  | [payload] => .ok (pushV (.str payload) st)
  | _ => .error .panicked

def appBinbytes (chunks : Chunks) (st : DState) : Except Err DState :=
  match chunks with
  | [payload] => .ok (pushV (.bytes payload) st)
  | _ => .error .panicked

def appUnicode (chunks : Chunks) (st : DState) : Except Err DState :=
  match chunks with
  | [l] =>
    match pydecodeRawUnicodeEscape l with
    | .error e => .error e
    | .ok bs => .ok (pushV (.str bs) st)
  | _ => .error .panicked

def appBinunicode (chunks : Chunks) (st : DState) : Except Err DState :=
  match chunks with
  | [payload] => .ok (pushV (.str payload) st)
  | _ => .error .panicked

def appAppend (_ : Chunks) (st : DState) : Except Err DState :=
  match st.stack with
  | v :: l :: rest =>
    match userOK1 v with
    | .error e => .error e
    | .ok _ =>
      match l with
      | .list vs => .ok { st with stack := .list (vs ++ [v]) :: rest }
      | _ => .error .appendNotList
  | _ => .error .stackUnderflow

def appNotImplemented (_ : Chunks) (_ : DState) : Except Err DState :=
  .error .notImplemented

def appGlobal (chunks : Chunks) (st : DState) : Except Err DState :=
  match chunks with
  | [m, n] => .ok (pushV (.class_ m n) st)
  | _ => .error .panicked

def appDict (_ : Chunks) (st : DState) : Except Err DState :=
  match splitMark st.stack with
  | Option.none => .error .noMarker
  | some (above, below) =>
    let items := above.reverse
    if items.length % 2 ≠ 0 then .error .dictOddElements
    else
      match mapAssignPairs [] items with
      | Option.none => .error .invalidKeyType
      | some m => .ok { st with stack := .dict m :: below }

def appEmptyDict (_ : Chunks) (st : DState) : Except Err DState :=
  .ok (pushV (.dict []) st)

def appAppends (_ : Chunks) (st : DState) : Except Err DState :=
  match splitMark st.stack with
  | Option.none => .error .noMarker
  | some (above, below) =>
    match below with
    | [] => .error .stackUnderflow
    | l :: rest =>
      match l with
      | .list vs => .ok { st with stack := .list (vs ++ above.reverse) :: rest }
      | _ => .error .appendsNotList

def appGet (chunks : Chunks) (st : DState) : Except Err DState :=
  match chunks with
  | [l] =>
    match memoGet? st.memo l with
    | some v => .ok (pushV v st)
    | Option.none => .error (.memoKeyError l)
  | _ => .error .panicked

def appBinget (chunks : Chunks) (st : DState) : Except Err DState :=
  match chunks with
  | [[b]] =>
    match memoGet? st.memo (natDec b) with
    | some v => .ok (pushV v st)
    | Option.none => .error (.memoKeyError (natDec b))
  | _ => .error .panicked

def appLongBinget (chunks : Chunks) (st : DState) : Except Err DState :=
  match chunks with
  | [bs] =>
    match memoGet? st.memo (natDec (leValN bs)) with
    | some v => .ok (pushV v st)
    | Option.none => .error (.memoKeyError (natDec (leValN bs)))
  | _ => .error .panicked

def appBool (b : Bool) (_ : Chunks) (st : DState) : Except Err DState :=
  .ok (pushV (.bool b) st)

def appList (_ : Chunks) (st : DState) : Except Err DState :=
  match splitMark st.stack with
  | Option.none => .error .noMarker
  | some (above, below) => .ok { st with stack := .list above.reverse :: below }

def appTuple (_ : Chunks) (st : DState) : Except Err DState :=
  match splitMark st.stack with
  | Option.none => .error .noMarker
  | some (above, below) => .ok { st with stack := .tuple above.reverse :: below }

/-- TUPLE1/2/3 (`tupleN`): the top `n` values (no mark allowed) become a
tuple. -/
def appTupleN (n : Nat) (_ : Chunks) (st : DState) : Except Err DState :=
  if st.stack.length < n then .error .stackUnderflow
  else if (st.stack.take n).any isMark then .error .noMarkUse
  else .ok { st with stack := .tuple (st.stack.take n).reverse :: st.stack.drop n }

def appPut (chunks : Chunks) (st : DState) : Except Err DState :=
  match chunks with
  | [l] => memoTop l st
  | _ => .error .panicked

def appBinput (chunks : Chunks) (st : DState) : Except Err DState :=
  match chunks with
  | [[b]] => memoTop (natDec b) st
  | _ => .error .panicked

def appLongBinput (chunks : Chunks) (st : DState) : Except Err DState :=
  match chunks with
  | [bs] => memoTop (natDec (leValN bs)) st
  | _ => .error .panicked

def appSetitem (_ : Chunks) (st : DState) : Except Err DState :=
  match st.stack with
  | v :: k :: m :: rest =>
    match userOK1 k with
    | .error e => .error e
    | .ok _ =>
      match userOK1 v with
      | .error e => .error e
      | .ok _ =>
        match m with
        | .dict pairs =>
          match mapTryAssign pairs k v with
          | some pairs2 => .ok { st with stack := .dict pairs2 :: rest }
          | Option.none => .error .invalidKeyType
        | _ => .error .setitemNotMap
  | _ => .error .stackUnderflow

def appSetitems (_ : Chunks) (st : DState) : Except Err DState :=
  match splitMark st.stack with
  | Option.none => .error .noMarker
  | some (above, below) =>
    match below with
    | [] => .error .stackUnderflow
    | l :: rest =>
      match l with
      | .dict pairs =>
        if above.length % 2 ≠ 0 then .error .setitemsOddElements
        else
          match mapAssignPairs pairs above.reverse with
          | some pairs2 => .ok { st with stack := .dict pairs2 :: rest }
          | Option.none => .error .invalidKeyType
      | _ => .error .setitemsNotMap

def appBinfloat (chunks : Chunks) (st : DState) : Except Err DState :=
  match chunks with
  | [bs] => .ok (pushV (.float (.bits (beValN bs))) st)
  | _ => .error .panicked

def appFrame (_ : Chunks) (st : DState) : Except Err DState := .ok st

def appStackGlobal (_ : Chunks) (st : DState) : Except Err DState :=
  match st.stack with
  | xname :: xmodule :: rest =>
    match xname with
    | .str n =>
      match xmodule with
      | .str m => .ok { st with stack := .class_ m n :: rest }
      | _ => .error .stackGlobalBadModule
    | _ => .error .stackGlobalBadName
  | _ => .error .stackUnderflow

/-- MEMOIZE: store the top under the decimal of the current memo size. -/
def appMemoize (_ : Chunks) (st : DState) : Except Err DState :=
  memoTop (natDec st.memo.length) st

def appBytearray8 (chunks : Chunks) (st : DState) : Except Err DState :=
  match chunks with
  | [payload] => .ok (pushV (.bytearray payload) st)
  | _ => .error .panicked

def appNextBuffer (_ : Chunks) (_ : DState) : Except Err DState :=
  .error .nextBufferNoOOB

def appReadOnlyBuffer (_ : Chunks) (_ : DState) : Except Err DState :=
  .error .readOnlyBufferNotBuffer

/-- PROTO: the version byte must be in [0, 5]. -/
def appProto (chunks : Chunks) (st : DState) : Except Err DState :=
  match chunks with
  | [[v]] =>
    if v ≤ 5 then .ok { st with protocol := v }
    else .error .invalidPickleVersion
  | _ => .error .panicked

def appEmptyList (_ : Chunks) (st : DState) : Except Err DState :=
  .ok (pushV (.list []) st)

def appEmptyTuple (_ : Chunks) (st : DState) : Except Err DState :=
  .ok (pushV (.tuple []) st)

/-- The dispatch table of `Decode`: reader and state update per opcode;
`none` for unknown opcodes (which become `OpcodeError`). -/
def dispatch (key : Nat) : Option (RdM Chunks × (Chunks → DState → Except Err DState)) :=
  if key = opMark then some (rdNone, appMark)
  else if key = opPop then some (rdNone, appPop)
  else if key = opPopMark then some (rdNone, appPopMark)
  else if key = opDup then some (rdNone, appDup)
  else if key = opFloat then some (rdLine, appFloat)
  else if key = opInt then some (rdLine, appInt)
  else if key = opBinint then some (rdFull 4, appBinint)
  else if key = opBinint1 then some (rdByte, appBinint1)
  else if key = opLong then some (rdLine, appLong)
  else if key = opLong1 then some (rdLong1, appLong1)
  else if key = opBinint2 then some (rdFull 2, appBinint2)
  else if key = opNone then some (rdNone, appNone)
  else if key = opPersid then some (rdLine, appPersid)
  else if key = opBinpersid then some (rdNone, appBinpersid)
  else if key = opReduce then some (rdNone, appReduce)
  else if key = opString then some (rdLine, appString)
  else if key = opBinstring then some (rdCounted4, appBinstring)
  else if key = opShortBinstring then some (rdCounted1, appBinstring)
  else if key = opUnicode then some (rdLine, appUnicode)
  else if key = opBinunicode then some (rdBinUnicode, appBinunicode)
  else if key = opAppend then some (rdNone, appAppend)
  else if key = opBuild then some (rdNone, appNotImplemented)
  else if key = opGlobal then some (rdLine2, appGlobal)
  else if key = opDict then some (rdNone, appDict)
  else if key = opEmptyDict then some (rdNone, appEmptyDict)
  else if key = opAppends then some (rdNone, appAppends)
  else if key = opGet then some (rdLine, appGet)
  else if key = opBinget then some (rdByte, appBinget)
  else if key = opInst then some (rdNone, appNotImplemented)
  else if key = opLongBinget then some (rdFull 4, appLongBinget)
  else if key = opList then some (rdNone, appList)
  else if key = opEmptyList then some (rdNone, appEmptyList)
  else if key = opObj then some (rdNone, appNotImplemented)
  else if key = opPut then some (rdLine, appPut)
  else if key = opBinput then some (rdByte, appBinput)
  else if key = opLongBinput then some (rdFull 4, appLongBinput)
  else if key = opSetitem then some (rdNone, appSetitem)
  else if key = opTuple then some (rdNone, appTuple)
  else if key = opTuple1 then some (rdNone, appTupleN 1)
  else if key = opTuple2 then some (rdNone, appTupleN 2)
  else if key = opTuple3 then some (rdNone, appTupleN 3)
  else if key = opEmptyTuple then some (rdNone, appEmptyTuple)
  else if key = opSetitems then some (rdNone, appSetitems)
  else if key = opBinfloat then some (rdFull 8, appBinfloat)
  else if key = opNewfalse then some (rdNone, appBool false)
  else if key = opNewtrue then some (rdNone, appBool true)
  else if key = opBinbytes then some (rdCounted4, appBinbytes)
  else if key = opShortBinbytes then some (rdCounted1, appBinbytes)
  else if key = opFrame then some (rdFull 8, appFrame)
  else if key = opShortBinUnicode then some (rdCounted1, appBinunicode)
  else if key = opStackGlobal then some (rdNone, appStackGlobal)
  else if key = opMemoize then some (rdNone, appMemoize)
  else if key = opBytearray8 then some (rdCounted8, appBytearray8)
  else if key = opNextBuffer then some (rdNone, appNextBuffer)
  else if key = opReadOnlyBuffer then some (rdNone, appReadOnlyBuffer)
  else if key = opProto then some (rdByte, appProto)
  else Option.none

/-- Error normalization at the dispatch loop: `errNotImplemented` becomes
`OpcodeError` and `io.EOF` from an opcode handler becomes
`io.ErrUnexpectedEOF`. -/
def normE (e : Err) (key pos : Nat) : Err :=
  match e with
  | .notImplemented => .opcode key pos
  | .eof => .unexpectedEOF
  | e => e

/-- The dispatch loop of `Decode`.  `insn` counts consumed opcodes; end of
input at the dispatch read is plain `io.EOF` only before the first opcode.
STOP pops the result via `popUser`.  The fuel is a model device: every
iteration consumes at least the opcode byte, so fuel `input.length + 1`
(as used by `decodeD`) never runs out. -/
def decodeLoop : Nat → DState → List Nat → Nat → Except Err (Value × DState × List Nat)
  | 0, _, _, _ => .error .outOfFuel
  | _ + 1, _, [], insn => .error (if insn = 0 then .eof else .unexpectedEOF)
  | fuel + 1, st, key :: s, insn =>
    if key = opStop then
      match popUserV st.stack with
      | .error e => .error e
      | .ok (v, rest) => .ok (v, { st with stack := rest }, s)
    else
      match dispatch key with
      | Option.none => .error (.opcode key (insn + 1))
      | some (reader, app) =>
        match run reader s with
        | .error e => .error (normE e key (insn + 1))
        | .ok (chunks, s2) =>
          match app chunks st with
          | .error e => .error (normE e key (insn + 1))
          | .ok st2 => decodeLoop fuel st2 s2 (insn + 1)

/-- One `Decode` call of a decoder in state `st` on the remaining input. -/
def decodeFrom (st : DState) (input : List Nat) : Except Err (Value × DState × List Nat) :=
  decodeLoop (input.length + 1) st input 0

/-- One `Decode` call of a fresh decoder (`NewDecoder`) on `input`:
the decoded value, the final decoder state, and the unread remainder of the
input. -/
def decodeD (input : List Nat) : Except Err (Value × DState × List Nat) :=
  decodeFrom initState input

/-- The dispatch loop of `Decode` with the decoder state kept at error
returns.  In Go, `Decode` returns `(nil, err)` but the receiver `d`
retains its fields, so `d.memo` (and `d.stack`) persist into the next
`Decode` call even after a failure; this variant makes that retained
state explicit.  Every error site returns the current state unchanged:
each handler either fails before mutating the decoder or mutates and
succeeds. -/
def decodeLoopSt : Nat → DState → List Nat → Nat →
    Except (Err × DState) (Value × DState × List Nat)
  | 0, st, _, _ => .error (.outOfFuel, st)
  | _ + 1, st, [], insn =>
    .error ((if insn = 0 then .eof else .unexpectedEOF), st)
  | fuel + 1, st, key :: s, insn =>
    if key = opStop then
      match popUserV st.stack with
      | .error e => .error (e, st)
      | .ok (v, rest) => .ok (v, { st with stack := rest }, s)
    else
      match dispatch key with
      | Option.none => .error (.opcode key (insn + 1), st)
      | some (reader, app) =>
        match run reader s with
        | .error e => .error (normE e key (insn + 1), st)
        | .ok (chunks, s2) =>
          match app chunks st with
          | .error e => .error (normE e key (insn + 1), st)
          | .ok st2 => decodeLoopSt fuel st2 s2 (insn + 1)

/-- One `Decode` call from state `st`, keeping the decoder state on
error. -/
def decodeFromSt (st : DState) (input : List Nat) :
    Except (Err × DState) (Value × DState × List Nat) :=
  decodeLoopSt (input.length + 1) st input 0

/-! ## The encoder (encode.go, protocol-aware version)

The encoder is embedded over the same `Value` universe.  The Go encoder
dispatches on `reflect.Kind` plus interface type switches; here the
dispatch is the single match of `encodeVF`.  The protocol-0 text paths that
depend on `strconv.IsPrint`'s Unicode tables (plain-string quoting via
`pyquote`) and the IEEE-754 bit pattern of a text-parsed float are not
modelled; they return dedicated errors and are not needed by any claim.
`encodeCall` is unfolded at the two places where the source encodes a
constructed `Call` (`encodeBytes` for protocols ≤ 2 and `encodeByteArray`
for protocols ≤ 4), keeping the recursion structural. -/

/-- Encoder errors (plus model-device constructors, see above). -/
inductive EncErr where
  | invalidProtocol
  | typeError
  | p0PersIDStringLineOnly
  | p0123GlobalStringLineOnly
  | p0StringQuotingNotModelled
  | floatBitsNotModelled
  | encOutOfFuel
  deriving DecidableEq, Repr

/-- `pybuiltin` module selection with the encoder's `int` protocol. -/
def pybuiltinModuleI (protocol : Int) : List Nat :=
  if protocol ≤ 2 then sBuiltinPy2 else sBuiltinPy3

/-- `encodeBool`: NEWTRUE/NEWFALSE for protocol ≥ 2, else the `I01`/`I00`
lines. -/
def encodeBoolE (proto : Int) (b : Bool) : List Nat :=
  if 2 ≤ proto then [if b then opNewtrue else opNewfalse]
  else if b then [73, 48, 49, 10] else [73, 48, 48, 10]

/-- `encodeInt`: for protocol ≥ 1, BININT1 when `0 < i < 255`, BININT2 when
`0 < i < 65535`, BININT when the value fits a signed 32-bit integer;
otherwise (and always at protocol 0) the ASCII decimal INT form. -/
def encodeIntE (proto : Int) (i : Int) : List Nat :=
  if 1 ≤ proto then
    if 0 < i ∧ i < 255 then [opBinint1, i.toNat]
    else if 0 < i ∧ i < 65535 then [opBinint2, i.toNat % 256, i.toNat / 256 % 256]
    else if -2147483648 ≤ i ∧ i ≤ 2147483647 then
      opBinint :: le32 (i % 4294967296).toNat
    else opInt :: intDec i ++ [10]
  else opInt :: intDec i ++ [10]

/-- `encodeLong`: `L<decimal>L\n`. -/
def encodeLongE (z : Int) : List Nat := opLong :: intDec z ++ [76, 10]

/-- `encodeFloat`: BINFLOAT with the IEEE-754 big-endian bits for protocol
≥ 1. -/
def encodeFloatE (proto : Int) (f : F64) : Except EncErr (List Nat) :=
  if 1 ≤ proto then
    match f with
    | .bits n => .ok (opBinfloat :: be64 (n % 18446744073709551616))
    | _ => .error .floatBitsNotModelled
  else .error .floatBitsNotModelled

/-- ASCII hex digit (lower case). -/
def hexDigit (n : Nat) : Nat := if n < 10 then 48 + n else 87 + n

/-- Inner loop of `pyencodeRawUnicodeEscape` (fuelled; each step consumes
at least one byte).  Note that on the replacement rune (invalid UTF-8, and
also a literal U+FFFD) the source emits only the first byte of the
sequence and then skips the whole width. -/
def pyencodeRawUnicodeEscapeAux : Nat → List Nat → List Nat
  | 0, _ => []
  | _, [] => []
  | fuel + 1, s@(b0 :: _) =>
    let rw := decRune s
    let r := rw.1
    let tail := pyencodeRawUnicodeEscapeAux fuel (s.drop (max rw.2 1))
    if r = runeError then b0 :: tail
    else if r = 92 ∨ r = 10 then
      92 :: 117 :: 48 :: 48 :: hexDigit (r / 16) :: hexDigit (r % 16) :: tail
    else if 65536 ≤ r then
      92 :: 85 :: (List.range 8).reverse.map (fun j => hexDigit (r / 16 ^ j % 16)) ++ tail
    else if 256 ≤ r then
      92 :: 117 :: (List.range 4).reverse.map (fun j => hexDigit (r / 16 ^ j % 16)) ++ tail
    else r :: tail

/-- `pyencodeRawUnicodeEscape`: the raw-unicode-escape encoder used for the
UNICODE opcode at protocol 0. -/
def pyencodeRawUnicodeEscape (s : List Nat) : List Nat :=
  pyencodeRawUnicodeEscapeAux s.length s

/-- `encodeUnicode`: SHORT_BINUNICODE (protocol ≥ 4, short) or BINUNICODE
for protocol ≥ 1; raw-unicode-escape UNICODE line at protocol 0. -/
def encodeUnicodeE (proto : Int) (s : List Nat) : List Nat :=
  if 1 ≤ proto then
    if s.length < 256 ∧ 4 ≤ proto then opShortBinUnicode :: s.length :: s
    else opBinunicode :: le32 s.length ++ s
  else opUnicode :: pyencodeRawUnicodeEscape s ++ [10]

/-- `encodeString`: unicode object for protocol ≥ 3, BINSTRING family for
protocol ≥ 1; the protocol-0 `pyquote` STRING path is not modelled. -/
def encodeStringE (proto : Int) (s : List Nat) : Except EncErr (List Nat) :=
  if 3 ≤ proto then .ok (encodeUnicodeE proto s)
  else if 1 ≤ proto then
    .ok (if s.length < 256 then opShortBinstring :: s.length :: s
         else opBinstring :: le32 s.length ++ s)
  else .error .p0StringQuotingNotModelled

/-- `encodeClass`: STACK_GLOBAL via two strings for protocol ≥ 4, else the
GLOBAL line form, which requires newline-free module and name. -/
def encodeClassE (proto : Int) (m n : List Nat) : Except EncErr (List Nat) :=
  if 4 ≤ proto then do
    let em ← encodeStringE proto m
    let en ← encodeStringE proto n
    .ok (em ++ en ++ [opStackGlobal])
  else if m.contains 10 ∨ n.contains 10 then .error .p0123GlobalStringLineOnly
  else .ok (opGlobal :: m ++ [10] ++ n ++ [10])

/-- Framing of `encodeTuple` around the encoded elements: TUPLE1/2/3 for
1-3 elements at protocol ≥ 2, EMPTY_TUPLE for the empty tuple at protocol
≥ 1, else `MARK ... TUPLE`. -/
def tupleWrap (proto : Int) (l : Nat) (body : List Nat) : List Nat :=
  if 2 ≤ proto ∧ 1 ≤ l ∧ l ≤ 3 then body ++ [132 + l]
  else if 1 ≤ proto ∧ l = 0 then [opEmptyTuple]
  else opMark :: body ++ [opTuple]

/-- `encodeBytes`: BINBYTES family for protocol ≥ 3; for lower protocols
the bytes are emitted as `_codecs.encode(byt.decode('latin1'), 'latin1')`
(the `encodeCall` of the constructed `Call` is unfolded here). -/
def encodeBytesE (proto : Int) (b : List Nat) : Except EncErr (List Nat) :=
  if 3 ≤ proto then
    .ok (if b.length < 256 then opShortBinbytes :: b.length :: b
         else opBinbytes :: le32 b.length ++ b)
  else do
    let cls ← encodeClassE proto sCodecs sEncode
    let a1 := encodeUnicodeE proto (encRunes b)
    let a2 ← encodeStringE proto sLatin1
    .ok (cls ++ tupleWrap proto 2 (a1 ++ a2) ++ [opReduce])

/-- `encodeByteArray`: BYTEARRAY8 for protocol ≥ 5; else the
`bytearray(bytes(...))` reduce call (unfolded `encodeCall`). -/
def encodeByteArrayE (proto : Int) (b : List Nat) : Except EncErr (List Nat) :=
  if 5 ≤ proto then .ok (opBytearray8 :: le64 b.length ++ b)
  else do
    let cls ← encodeClassE proto (pybuiltinModuleI proto) sBytearray
    let ab ← encodeBytesE proto b
    .ok (cls ++ tupleWrap proto 1 ab ++ [opReduce])

/-- `encode`: the type-case dispatch, with fuel decreasing at every descent
into a sub-value (a model device: fuel `sizeOf v` bounds the recursion
depth, so `EncodeE` below never exhausts it). -/
def encodeVF : Nat → Int → Value → Except EncErr (List Nat)
  | 0, _, _ => .error .encOutOfFuel
  | fuel + 1, proto, v =>
    match v with
    | .bool b => .ok (encodeBoolE proto b)
    | .int i => .ok (encodeIntE proto i)
    | .bigint z => .ok (encodeLongE z)
    | .float f => encodeFloatE proto f
    | .str s => encodeStringE proto s
    | .bytes s => encodeBytesE proto s
    | .bytearray s => encodeByteArrayE proto s
    | .tuple vs => do
      let parts ← vs.mapM (encodeVF fuel proto)
      .ok (tupleWrap proto vs.length parts.flatten)
    | .list vs =>
      if 1 ≤ proto ∧ vs.length = 0 then .ok [opEmptyList]
      else do
        let parts ← vs.mapM (encodeVF fuel proto)
        .ok (opMark :: parts.flatten ++ [opList])
    | .dict m =>
      if 1 ≤ proto ∧ m.length = 0 then .ok [opEmptyDict]
      else do
        let parts ← m.mapM (fun kv => do
          let ek ← encodeVF fuel proto kv.1
          let ev ← encodeVF fuel proto kv.2
          pure (ek ++ ev))
        .ok (opMark :: parts.flatten ++ [opDict])
    | .none => .ok [opNone]
    | .class_ m n => encodeClassE proto m n
    | .call m n args => do
      let cls ← encodeClassE proto m n
      let parts ← args.mapM (encodeVF fuel proto)
      .ok (cls ++ tupleWrap proto args.length parts.flatten ++ [opReduce])
    | .ref pid =>
      if proto = 0 then
        match pid with
        | .str s =>
          if s.contains 10 then .error .p0PersIDStringLineOnly
          else .ok (opPersid :: s ++ [10])
        | _ => .error .p0PersIDStringLineOnly
      else do
        let ep ← encodeVF fuel proto pid
        .ok (ep ++ [opBinpersid])
    -- the mark sentinel is a plain Go struct with no fields, so the generic
    -- struct path of encodeStruct emits `MARK DICT`; unreachable from
    -- decoded values
    | .mark => .ok [opMark, opDict]

/-- Encoder recursion-depth bound.  The Go encoder recurses on the value
tree; a tree of depth beyond 2^64 is not realizable (the Go program would
exhaust its stack long before), and no claim under verification quantifies
over encoder inputs, so the fuel never runs out where it is observed. -/
def encFuel : Nat := 18446744073709551616

/-- `Encode`: protocol validation, the `PROTO` preamble for protocol ≥ 2,
the encoded value, and the trailing STOP. -/
def EncodeE (proto : Int) (v : Value) : Except EncErr (List Nat) :=
  if 0 ≤ proto ∧ proto ≤ 5 then
    match encodeVF encFuel proto v with
    | .error e => .error e
    | .ok body =>
      .ok ((if 2 ≤ proto then [opProto, proto.toNat] else []) ++ body ++ [opStop])
  else .error .invalidProtocol

/-! ## The Dict component: Python-style `equal` and `hash`

This models the `kindOf` / `equal` / `hash` functions of the Dict source
file over a value universe `GoV` covering the kinds the claims exercise:
strings (`string` / `ByteString` / `Bytes`), the numeric kinds
(bool / int / uint / float / complex / *big.Int), and the `None` / `Class`
structs.  The slice, map, generic-struct and pointer arms of `equal`, and
the tuple/struct arms of `hash`, operate on host values not needed to
settle the claims and are not part of this universe.

Finite float64 and complex128 values are carried as their exact rational
value; the int64/uint64 -> float64 conversions are modelled exactly
(round to nearest, ties to even), per the Go specification. -/

/-- The Dict-component value universe. -/
inductive GoV where
  | str (s : List Nat)
  | bytestr (s : List Nat)
  | bytes (s : List Nat)
  | bool (b : Bool)
  | int (i : Int)
  | uint (u : Nat)
  | float (q : ℚ)
  | complex (re im : ℚ)
  | bigint (z : Int)
  | noneV
  | classV (m n : List Nat)
  deriving DecidableEq, Repr

/-- `bint`: 1 for true, 0 for false. -/
def bint (b : Bool) : Int := if b then 1 else 0

/-- `kindOf` (kBool = 0, kInt, kUint, kFloat, kComplex, kBigInt, kSlice,
kMap, kStruct, kPointer, kOther); strings fall into kOther, but `equal`
and `hash` treat them before consulting the kind. -/
def kindOfG : GoV → Nat
  | .bool _ => 0
  | .int _ => 1
  | .uint _ => 2
  | .float _ => 3
  | .complex _ _ => 4
  | .bigint _ => 5
  | .noneV => 8
  | .classV _ _ => 8
  | .str _ => 10
  | .bytestr _ => 10
  | .bytes _ => 10

/-- Number of significant bits of a value below 2^64. -/
def bitLen64 (n : Nat) : Nat :=
  (List.range 64).foldl (fun acc j => if 2 ^ j ≤ n then j + 1 else acc) 0

/-- Round a natural number below 2^64 to 53 significant bits, ties to
even: the significand rounding performed by the Go int64/uint64 -> float64
conversions. -/
def roundEvenTo53 (n : Nat) : Nat :=
  if n < 9007199254740992 then n
  else
    let shift := bitLen64 n - 53
    let q := n / 2 ^ shift
    let r := n % 2 ^ shift
    let half := 2 ^ (shift - 1)
    let q2 := if half < r ∨ (r = half ∧ q % 2 = 1) then q + 1 else q
    q2 * 2 ^ shift

/-- Exact value of the Go conversion `float64(a)` for an int64 `a` (always
an integer, since |a| ≤ 2^63 ≤ the largest exact range step). -/
def i64ToF64 (i : Int) : Int :=
  if i < 0 then -(roundEvenTo53 i.natAbs : Int) else (roundEvenTo53 i.natAbs : Int)

/-- Exact value of the Go conversion `float64(u)` for a uint64 `u`. -/
def u64ToF64 (u : Nat) : Int := roundEvenTo53 u

/-- Number of significant bits of an arbitrary natural number (fuelled
division; fuel `n` suffices). -/
def bitLenBigAux : Nat → Nat → Nat
  | 0, _ => 0
  | fuel + 1, n => if n = 0 then 0 else bitLenBigAux fuel (n / 2) + 1

/-- Number of significant bits of an arbitrary natural number. -/
def bitLenBig (n : Nat) : Nat := bitLenBigAux n n

/-- Modelled from the spec: `bigInt_Float64` (used by `eq_Float_BigInt`
and the bigint arm of `hash`) is not among the packaged sources; per spec
§4.3 a float compares equal to a big integer only when the big integer
converts exactly to the float64.  This returns the exact rational value
when the integer is exactly representable as a float64, `none` otherwise
(53-significant-bit integers of magnitude below 2^1024). -/
def bigIntExactF64 (z : Int) : Option ℚ :=
  let n := z.natAbs
  if n = 0 then some 0
  else
    let bl := bitLenBig n
    if 1024 < bl then Option.none
    else if bl ≤ 53 then some (z : ℚ)
    else if n % 2 ^ (bl - 53) = 0 then some (z : ℚ)
    else Option.none

/-- Equality matrix: nontrivial and trivial elements from the source.
`eq_Int_Float` is the source's `float64(a) == b` - the int64 is converted
(lossily, for magnitudes above 2^53) to float64 and then compared. -/
def eq_Int_Int (a b : Int) : Bool := a = b

def eq_Int_Uint (a : Int) (b : Nat) : Bool :=
  if 0 ≤ a then a.toNat = b else false

def eq_Int_Float (a : Int) (b : ℚ) : Bool := ((i64ToF64 a : Int) : ℚ) = b

def eq_Int_Complex (a : Int) (bre bim : ℚ) : Bool :=
  ((i64ToF64 a : Int) : ℚ) = bre && bim = 0

def eq_Int_BigInt (a : Int) (z : Int) : Bool :=
  if -9223372036854775808 ≤ z ∧ z ≤ 9223372036854775807 then a = z else false

def eq_Uint_Uint (a b : Nat) : Bool := a = b

def eq_Uint_Float (a : Nat) (b : ℚ) : Bool := ((u64ToF64 a : Int) : ℚ) = b

def eq_Uint_Complex (a : Nat) (bre bim : ℚ) : Bool :=
  ((u64ToF64 a : Int) : ℚ) = bre && bim = 0

def eq_Uint_BigInt (a : Nat) (z : Int) : Bool :=
  if 0 ≤ z ∧ z ≤ 18446744073709551615 then (a : Int) = z else false

def eq_Float_Float (a b : ℚ) : Bool := a = b

def eq_Float_Complex (a bre bim : ℚ) : Bool := a = bre && bim = 0

def eq_Float_BigInt (a : ℚ) (z : Int) : Bool :=
  match bigIntExactF64 z with
  | some q => a = q
  | Option.none => false

def eq_Complex_Complex (are aim bre bim : ℚ) : Bool := are = bre && aim = bim

def eq_Complex_BigInt (are aim : ℚ) (z : Int) : Bool :=
  if aim = 0 then eq_Float_BigInt are z else false

def eq_BigInt_BigInt (a b : Int) : Bool := a = b

/-- The kind-ordered half of the comparison matrix of `equal` (the caller
swaps so that `kind a ≤ kind b`); unmatched kind pairs inside the handled
blocks yield false, as does a struct-type mismatch. -/
def equalNum : GoV → GoV → Bool
  | .bool x, .bool y => eq_Int_Int (bint x) (bint y)
  | .bool x, .int y => eq_Int_Int (bint x) y
  | .bool x, .uint y => eq_Int_Uint (bint x) y
  | .bool x, .float y => eq_Int_Float (bint x) y
  | .bool x, .complex yr yi => eq_Int_Complex (bint x) yr yi
  | .bool x, .bigint y => eq_Int_BigInt (bint x) y
  | .int x, .int y => eq_Int_Int x y
  | .int x, .uint y => eq_Int_Uint x y
  | .int x, .float y => eq_Int_Float x y
  | .int x, .complex yr yi => eq_Int_Complex x yr yi
  | .int x, .bigint y => eq_Int_BigInt x y
  | .uint x, .uint y => eq_Uint_Uint x y
  | .uint x, .float y => eq_Uint_Float x y
  | .uint x, .complex yr yi => eq_Uint_Complex x yr yi
  | .uint x, .bigint y => eq_Uint_BigInt x y
  | .float x, .float y => eq_Float_Float x y
  | .float x, .complex yr yi => eq_Float_Complex x yr yi
  | .float x, .bigint y => eq_Float_BigInt x y
  | .complex xr xi, .complex yr yi => eq_Complex_Complex xr xi yr yi
  | .complex xr xi, .bigint y => eq_Complex_BigInt xr xi y
  | .bigint x, .bigint y => eq_BigInt_BigInt x y
  | .noneV, .noneV => true
  | .classV m1 n1, .classV m2 n2 => m1 = m2 && n1 = n2
  | _, _ => false

/-- `equal`: Python-equality.  Strings, byte strings and bytes compare by
octets with the `ByteString` bridge (string vs `Bytes` never equal); the
remaining kinds go through the symmetric kind matrix. -/
def equalGo (xa xb : GoV) : Bool :=
  match xa, xb with
  | .str a, .str b => a = b
  | .str a, .bytestr b => a = b
  | .str _, .bytes _ => false
  | .str _, _ => false
  | .bytestr a, .str b => a = b
  | .bytestr a, .bytestr b => a = b
  | .bytestr a, .bytes b => a = b
  | .bytestr _, _ => false
  | .bytes _, .str _ => false
  | .bytes a, .bytestr b => a = b
  | .bytes a, .bytes b => a = b
  | .bytes _, _ => false
  | a, b => if kindOfG a > kindOfG b then equalNum b a else equalNum a b

/-! ### `hash`

`hash(seed, x)` is `maphash.Hash.Sum64` (for strings, `maphash_String`)
over a byte stream determined by the value: the model below produces that
stream, and the seeded `Sum64` itself is an arbitrary function `H` of the
stream (the theorems quantify over it).  `bitsOf q` stands for
`math.Float64bits` of the float64 with exact value `q` (needed only on the
non-integral branch of `hash_Float`, which no claim hits). -/

/-- The Go conversion `int64(f)` for a float64 of exact value `q`:
truncation toward zero in range; out of range the result is
implementation-defined - the amd64 behaviour (math.MinInt64) is used. -/
def int64OfF64 (q : ℚ) : Int :=
  let t : Int := if 0 ≤ q then q.floor else q.ceil
  if t < -9223372036854775808 ∨ 9223372036854775807 < t then -9223372036854775808
  else t

/-- `hash_Float`: a float that is an integral value in int64 range hashes
as that integer (`hash_Int`), otherwise as its raw IEEE-754 bits. -/
def hashFloatBytes (bitsOf : ℚ → Nat) (q : ℚ) : List Nat :=
  let i := int64OfF64 q
  if ((i64ToF64 i : Int) : ℚ) = q then be64 (toUint64 i)
  else be64 (bitsOf q % 18446744073709551616)

/-- Byte-string tag `"bigInt"` written before the magnitude bytes. -/
def tagBigInt : List Nat := [98, 105, 103, 73, 110, 116]

/-- Byte-string struct type names written by the struct arm of `hash`. -/
def tagNone : List Nat := [78, 111, 110, 101]

def tagClass : List Nat := [67, 108, 97, 115, 115]

/-- The byte stream hashed for a value: `maphash_String` octets for the
string kinds, `hash_Int`/`hash_Uint`/`hash_Float` big-endian chunks for
numbers, int64/uint64/exact-float/tagged-bytes for `*big.Int`, and the
type name followed by the per-field hashes for the `None`/`Class`
structs (`H` is the seeded `Sum64` used for field hashes). -/
def hashStream (H : List Nat → Nat) (bitsOf : ℚ → Nat) : GoV → List Nat
  | .str s => s
  | .bytestr s => s
  | .bytes s => s
  | .bool b => be64 (toUint64 (bint b))
  | .int i => be64 (toUint64 i)
  | .uint u => be64 (u % 18446744073709551616)
  | .float q => hashFloatBytes bitsOf q
  | .complex re im =>
    hashFloatBytes bitsOf re ++ (if im ≠ 0 then hashFloatBytes bitsOf im else [])
  | .bigint z =>
    if -9223372036854775808 ≤ z ∧ z ≤ 9223372036854775807 then be64 (toUint64 z)
    else if 0 ≤ z ∧ z ≤ 18446744073709551615 then be64 z.toNat
    else
      match bigIntExactF64 z with
      | some q => hashFloatBytes bitsOf q
      | Option.none => tagBigInt ++ natBytesBE z.natAbs
  | .noneV => tagNone
  | .classV m n => tagClass ++ be64 (H m) ++ be64 (H n)

/-! ## Claim C1: decode-encode round trip -/

/-- A protocol-3 pickle `PROTO 3; GLOBAL __builtin__ bytearray;
SHORT_BINBYTES "x"; TUPLE1; REDUCE; STOP`.  At protocol 3 the decoder's
`pybuiltin` recognizer looks for `builtins.bytearray`, so this REDUCE is
unrecognized and decodes to a symbolic `Call`. -/
def c1Input : List Nat :=
  [128, 3] ++ [99] ++ sBuiltinPy2 ++ [10] ++ sBytearray ++ [10] ++
    [67, 1, 120] ++ [133, 82, 46]

/-- The value decoded from `c1Input`:
`Call{Class{"__builtin__", "bytearray"}, Tuple{Bytes("x")}}`. -/
def c1Obj : Value := .call sBuiltinPy2 sBytearray [.bytes [120]]

/-- Re-encoding `c1Obj` at protocol 2 (computed by `EncodeE 2 c1Obj`):
`PROTO 2`, the GLOBAL line for `__builtin__.bytearray`, the protocol-2
encoding of `Bytes("x")` (a `_codecs.encode(u"x", "latin1")` reduce),
TUPLE1, REDUCE, STOP. -/
def c1Reenc : List Nat :=
  [128, 2] ++ [99] ++ sBuiltinPy2 ++ [10] ++ sBytearray ++ [10] ++
    [99] ++ sCodecs ++ [10] ++ sEncode ++ [10] ++
    [88, 1, 0, 0, 0, 120] ++ [85, 6] ++ sLatin1 ++
    [134, 82, 133, 82, 46]

/-- C1: the round-trip law fails on the code.  The value
`Call{__builtin__.bytearray, (Bytes("x"),)}` is produced by a successful
decode (of a protocol-3 stream), encodes successfully at protocol 2, but
decoding the re-encoded stream yields `[]byte("x")` - the decoder at
protocol 2 recognizes `__builtin__.bytearray` and applies it - so
`decode(encode(v, 2))` is not equal to `v`, contradicting the round-trip
equality asserted by the claim (and by the repository's own fuzzer, which
panics on `!deepEqual(obj, obj2)` with no exception covering this case). -/
theorem c1_roundtrip_not_identity :
    (∃ st, decodeD c1Input = .ok (c1Obj, st, [])) ∧
    EncodeE 2 c1Obj = .ok c1Reenc ∧
    (∃ st, decodeD c1Reenc = .ok (.bytearray [120], st, [])) ∧
    c1Obj ≠ .bytearray [120] := by
  refine ⟨⟨⟨[], [], 3⟩, rfl⟩, rfl, ⟨⟨[], [], 2⟩, rfl⟩, fun h => Value.noConfusion h⟩

/-! ## Claim C2 (counterexample part): truncation safety as stated -/

/-- C2 counterexample: the claim quantifies over every byte sequence that
a fresh decoder decodes successfully.  `Decode` stops at the first
top-level STOP and ignores trailing bytes, so `"I5\n.."` decodes
successfully (leaving one byte unread); its length-4 prefix `"I5\n."` is
itself a complete pickle and also decodes successfully - not the
`UnexpectedEOF` the claim requires for every proper prefix. -/
theorem c2_truncation_cex :
    decodeD [73, 53, 10, 46, 46] = .ok (.int 5, initState, [46]) ∧
    [73, 53, 10, 46, 46].take 4 = [73, 53, 10, 46] ∧
    decodeD [73, 53, 10, 46] ≠ .error .unexpectedEOF := by
  refine ⟨rfl, rfl, fun h => ?_⟩
  have hok : decodeD [73, 53, 10, 46] = .ok (.int 5, initState, []) := rfl
  rw [hok] at h
  exact Except.noConfusion h

/-! ## Claim C3: numeric equality is mathematical-value equality -/

/-- C3: `equal` on numeric kinds is not mathematical-value equality.
`eq_Int_Float` compares `float64(a) == b`: converting the int64
9007199254740993 (= 2^53 + 1) to float64 rounds it to 9007199254740992,
so `equal` returns true for two mathematically different numbers
(Python returns False here, contradicting `equal`'s own documentation
"equality matching what Python would return"). -/
theorem c3_equal_int_float_lossy :
    equalGo (.int 9007199254740993) (.float 9007199254740992) = true ∧
    eq_Int_Float 9007199254740993 9007199254740992 = true ∧
    (9007199254740993 : ℚ) ≠ (9007199254740992 : ℚ) := by
  exact ⟨by decide, by decide, by decide⟩

/-! ## Claim C4: equal(a,b) implies hash(a) = hash(b) -/

/-- C4: the hash invariant breaks on the same pair.  `equal` holds between
int64 2^53+1 and float64 2^53 (claim C3's bug), but `hash` feeds maphash
the big-endian bytes of 2^53+1 for the int and - via `hash_Float`'s
integral branch - the big-endian bytes of 2^53 for the float: two
different streams, so the seeded `Sum64` values differ (for any seed whose
`Sum64` separates these two 8-byte inputs), contradicting the invariant
`equal(a,b) => hash(a)=hash(b)` stated in `hash`'s own documentation. -/
theorem c4_hash_invariant_broken :
    equalGo (.int 9007199254740993) (.float 9007199254740992) = true ∧
    ∀ (H : List Nat → Nat) (bitsOf : ℚ → Nat),
      hashStream H bitsOf (.int 9007199254740993) ≠
        hashStream H bitsOf (.float 9007199254740992) := by
  refine ⟨by decide, fun H bitsOf => ?_⟩
  intro h
  have h3 : hashStream H bitsOf (.int 9007199254740993) =
      [0, 32, 0, 0, 0, 0, 0, 1] := rfl
  have h4 : hashStream H bitsOf (.float 9007199254740992) =
      [0, 32, 0, 0, 0, 0, 0, 0] := rfl
  rw [h3, h4] at h
  exact absurd h (by decide)

/-! ## Claim C5: BININT1/BININT2/BININT selection -/

/-- C5 counterexample: the claim places 0 (and 255) in the BININT1 range,
but `encodeInt` guards with `i > 0 && i < math.MaxUint8`, so at protocol 1
the integer 0 is emitted as the five-byte BININT form, not as
`BININT1 0`. -/
theorem c5_encodeInt_zero_not_binint1 :
    encodeIntE 1 0 = [74, 0, 0, 0, 0] ∧ encodeIntE 1 0 ≠ [75, 0] := by
  exact ⟨by decide, by decide⟩

/-- C5 amended: for protocol ≥ 1, BININT1 exactly for `0 < i < 255`,
BININT2 exactly for `255 ≤ i < 65535`, BININT for the remaining signed
32-bit values, and the ASCII decimal INT form for wider integers and for
protocol 0. -/
theorem c5_encodeInt_table (p : Int) (i : Int) :
    (1 ≤ p → 0 < i → i < 255 → encodeIntE p i = [75, i.toNat]) ∧
    (1 ≤ p → 255 ≤ i → i < 65535 →
      encodeIntE p i = [77, i.toNat % 256, i.toNat / 256 % 256]) ∧
    (1 ≤ p → (i ≤ 0 ∨ 65535 ≤ i) → -2147483648 ≤ i → i ≤ 2147483647 →
      encodeIntE p i = 74 :: le32 (i % 4294967296).toNat) ∧
    ((p < 1 ∨ i < -2147483648 ∨ 2147483647 < i) →
      encodeIntE p i = 73 :: intDec i ++ [10]) := by
  refine ⟨?_, ?_, ?_, ?_⟩
  · intro hp h1 h2
    unfold encodeIntE
    split_ifs <;> first | rfl | omega
  · intro hp h1 h2
    unfold encodeIntE
    split_ifs <;> first | rfl | omega
  · intro hp h1 h2 h3
    unfold encodeIntE
    split_ifs <;> first | rfl | omega
  · intro h
    unfold encodeIntE
    split_ifs <;> first | rfl | omega

/-- C5 amended, witness: protocol 1 encodes 300 as `BININT2 44 1`. -/
theorem c5_encodeInt_table_witness :
    (1 : Int) ≤ 1 ∧ (255 : Int) ≤ 300 ∧ (300 : Int) < 65535 ∧
    encodeIntE 1 300 = [77, 44, 1] := by
  refine ⟨by decide, by decide, by decide, ?_⟩
  exact (c5_encodeInt_table 1 300).2.1 (by decide) (by decide) (by decide)

/-! ## Claim C6: POP_MARK discards through the topmost mark -/

/-- C6: POP_MARK does not discard anything.  `popMark` returns
`errNotImplemented` and the dispatch site `case opPopMark: d.popMark()`
drops the returned error, so the opcode is a silent no-op - contradicting
both the claim and `popMark`'s own comment ("Discard the stack through to
the topmost marker").  On `NONE MARK INT1 POP_MARK STOP` a discarding
POP_MARK would leave `None` on top, but the code returns `Int 1` and the
final stack still holds the mark and the `None` below it. -/
theorem c6_popMark_is_noop :
    decodeD [78, 40, 73, 49, 10, 49, 46] =
      .ok (.int 1, ⟨[.mark, .none], [], 0⟩, []) ∧
    (∀ st : DState, appPopMark [] st = .ok st) := by
  exact ⟨rfl, fun _ => rfl⟩

/-! ## Claim C10: BINUNICODE length with the high bit set -/

/-- C10: `loadBinUnicode` accumulates the 4-byte little-endian length into
a signed int32; when the high bit of the last length byte is set the
length is negative, the payload loop does not run, and the handler pushes
the empty string, consuming exactly the four length bytes. -/
theorem c10_binunicode_high_bit (b0 b1 b2 b3 : Nat) (rest : List Nat) (st : DState)
    (h0 : b0 < 256) (h1 : b1 < 256) (h2 : b2 < 256)
    (h3lo : 128 ≤ b3) (h3hi : b3 < 256) :
    run rdBinUnicode (b0 :: b1 :: b2 :: b3 :: rest) = .ok ([[]], rest) ∧
    appBinunicode [[]] st = .ok (pushV (.str []) st) := by
  constructor
  · show run
      (readBytesN (toInt32 (Nat.lor (Nat.lor (Nat.lor b0 (b1 <<< 8)) (b2 <<< 16))
        ((b3 <<< 24) % 4294967296))).toNat fun bs => .pure [bs]) rest = .ok ([[]], rest)
    have hu32 : Nat.lor (Nat.lor (Nat.lor b0 (b1 <<< 8)) (b2 <<< 16))
        ((b3 <<< 24) % 4294967296) < 2 ^ 32 := by
      have e1 : b0 < 2 ^ 32 := by omega
      have e2 : b1 <<< 8 < 2 ^ 32 := by
        simp only [Nat.shiftLeft_eq]
        omega
      have e3 : b2 <<< 16 < 2 ^ 32 := by
        simp only [Nat.shiftLeft_eq]
        omega
      have e4 : (b3 <<< 24) % 4294967296 < 2 ^ 32 := Nat.mod_lt _ (by omega)
      exact Nat.or_lt_two_pow (Nat.or_lt_two_pow (Nat.or_lt_two_pow e1 e2) e3) e4
    have hb3 : (b3 <<< 24) % 4294967296 = b3 * 2 ^ 24 := by
      simp only [Nat.shiftLeft_eq]
      exact Nat.mod_eq_of_lt (by omega)
    have hbit3 : ((b3 <<< 24) % 4294967296).testBit 31 = true := by
      rw [hb3]
      simp only [Nat.testBit, Nat.shiftRight_eq_div_pow]
      norm_num
      omega
    have hbit : (Nat.lor (Nat.lor (Nat.lor b0 (b1 <<< 8)) (b2 <<< 16))
        ((b3 <<< 24) % 4294967296)).testBit 31 = true := by
      show ((Nat.lor (Nat.lor b0 (b1 <<< 8)) (b2 <<< 16)) |||
        ((b3 <<< 24) % 4294967296)).testBit 31 = true
      rw [Nat.testBit_or, hbit3]
      simp
    have hge : 2 ^ 31 ≤ Nat.lor (Nat.lor (Nat.lor b0 (b1 <<< 8)) (b2 <<< 16))
        ((b3 <<< 24) % 4294967296) := Nat.testBit_implies_ge hbit
    set u := Nat.lor (Nat.lor (Nat.lor b0 (b1 <<< 8)) (b2 <<< 16))
        ((b3 <<< 24) % 4294967296) with hu
    have hu32n : u < 4294967296 := by
      have h32 : (2 : Nat) ^ 32 = 4294967296 := by norm_num
      rw [h32] at hu32
      exact hu32
    have hgen : 2147483648 ≤ u := by
      have h31 : (2 : Nat) ^ 31 = 2147483648 := by norm_num
      rw [h31] at hge
      exact hge
    have hmod : u % 4294967296 = u := Nat.mod_eq_of_lt hu32n
    have hneg : toInt32 u = (u : Int) - 4294967296 := by
      rw [toInt32, hmod, if_neg (by omega)]
      omega
    have hz : (toInt32 u).toNat = 0 := by
      rw [hneg]
      omega
    rw [hz]
    rfl
  · rfl

/-- C10 witness: length bytes `00 00 00 80` (advertised length 2^31)
followed by two junk bytes: the handler pushes the empty string and leaves
the junk unread. -/
theorem c10_binunicode_high_bit_witness :
    run rdBinUnicode [0, 0, 0, 128, 9, 9] = .ok ([[]], [9, 9]) ∧
    appBinunicode [[]] initState = .ok (pushV (.str []) initState) :=
  c10_binunicode_high_bit 0 0 0 128 [9, 9] initState (by decide) (by decide)
    (by decide) (by decide) (by decide)

/-! ## Claim C7: the `_codecs.encode(text, "latin1")` recognizer -/

/-- Characterization of the `decodeLatin1Bytes` loop against the rune
sequence of the string: it fails on the first rune ≥ 0x100, otherwise it
returns exactly the runes (one byte each). -/
theorem latin1OfAux_eq : ∀ (fuel : Nat) (s : List Nat), s.length ≤ fuel →
    (match (runesOfAux fuel s).find? (fun r => 256 ≤ r) with
     | some r => latin1OfAux fuel s = .error (.cannotEncode r)
     | Option.none => latin1OfAux fuel s = .ok (runesOfAux fuel s)) := by
  intro fuel
  induction fuel with
  | zero =>
    intro s hs
    have : s = [] := List.length_eq_zero.mp (Nat.le_zero.mp hs)
    subst this
    simp [runesOfAux, latin1OfAux]
  | succ fuel ih =>
    intro s hs
    match s with
    | [] => simp [runesOfAux, latin1OfAux]
    | b :: rest =>
      have hlen : ((b :: rest).drop (max (decRune (b :: rest)).2 1)).length ≤ fuel := by
        rw [List.length_drop]
        have h1 : 1 ≤ max (decRune (b :: rest)).2 1 := Nat.le_max_right _ _
        simp only [List.length_cons] at hs ⊢
        omega
      have ihs := ih _ hlen
      by_cases hbig : 256 ≤ (decRune (b :: rest)).1
      · have hr : runesOfAux (fuel + 1) (b :: rest) =
            (decRune (b :: rest)).1 ::
              runesOfAux fuel ((b :: rest).drop (max (decRune (b :: rest)).2 1)) := rfl
        have hl : latin1OfAux (fuel + 1) (b :: rest) =
            .error (.cannotEncode (decRune (b :: rest)).1) := by
          show (if 256 ≤ (decRune (b :: rest)).1 then
              Except.error (LatinErr.cannotEncode (decRune (b :: rest)).1)
            else (latin1OfAux fuel ((b :: rest).drop (max (decRune (b :: rest)).2 1))).map
              ((decRune (b :: rest)).1 :: ·)) =
            .error (.cannotEncode (decRune (b :: rest)).1)
          rw [if_pos hbig]
        rw [hr]
        rw [List.find?_cons_of_pos _ (by simpa using hbig)]
        exact hl
      · have hr : runesOfAux (fuel + 1) (b :: rest) =
            (decRune (b :: rest)).1 ::
              runesOfAux fuel ((b :: rest).drop (max (decRune (b :: rest)).2 1)) := rfl
        have hl : latin1OfAux (fuel + 1) (b :: rest) =
            (latin1OfAux fuel ((b :: rest).drop (max (decRune (b :: rest)).2 1))).map
              ((decRune (b :: rest)).1 :: ·) := by
          show (if 256 ≤ (decRune (b :: rest)).1 then
              Except.error (LatinErr.cannotEncode (decRune (b :: rest)).1)
            else (latin1OfAux fuel ((b :: rest).drop (max (decRune (b :: rest)).2 1))).map
              ((decRune (b :: rest)).1 :: ·)) = _
          rw [if_neg hbig]
        rw [hr]
        rw [List.find?_cons_of_neg _ (by simpa using hbig)]
        revert ihs
        cases hfind : (runesOfAux fuel
            ((b :: rest).drop (max (decRune (b :: rest)).2 1))).find? (fun r => 256 ≤ r) with
        | some r =>
          intro ihs
          simp only
          rw [hl, ihs]
          rfl
        | none =>
          intro ihs
          simp only
          rw [hl, ihs]
          rfl

/-- C7: after REDUCE pops `_codecs.encode` and the argument tuple
`(x, "latin1")`, for an arbitrary first argument `x`: when `x` is a Go
string whose every rune is below 0x100 the decoder pushes `Bytes` holding
one byte per rune (the Latin-1 encoding); when `x` is a Go string with
some rune ≥ 0x100 it fails with the wrapped `latin1: cannot encode`
error; when `x` is not a Go string it fails with the wrapped
`latin1: arg must be string` error.  It never succeeds otherwise and
never falls back to a symbolic `Call` in any of these cases. -/
theorem c7_codecs_encode_latin1 (x : Value) (st : DState) (S : List Value)
    (hstk : st.stack = .tuple [x, .str sLatin1] ::
      .class_ sCodecs sEncode :: S) :
    (∀ text : List Nat, x = .str text →
      ((∀ r ∈ runesOf text, r < 256) →
        appReduce [] st = .ok { st with stack := .bytes (runesOf text) :: S }) ∧
      (∀ r₀, (runesOf text).find? (fun r => 256 ≤ r) = some r₀ →
        appReduce [] st = .error (.codecsEncode (.cannotEncode r₀)))) ∧
    ((∀ text : List Nat, x ≠ .str text) →
      appReduce [] st = .error (.codecsEncode .notString)) := by
  have happ : appReduce [] st =
      (match handleCall st.protocol sCodecs sEncode [x, .str sLatin1] with
       | some (.ok v) => .ok { st with stack := v :: S }
       | some (.error e) => .error e
       | Option.none =>
         .ok { st with stack := .call sCodecs sEncode [x, .str sLatin1] :: S }) := by
    rw [appReduce, hstk]
  have hcall : handleCall st.protocol sCodecs sEncode [x, .str sLatin1] =
      some (match decodeLatin1Bytes x with
        | .error e => .error (.codecsEncode e)
        | .ok data => .ok (.bytes data)) := by
    rw [handleCall, if_pos]
    · rfl
    · exact ⟨rfl, rfl, rfl, by rfl⟩
  constructor
  · intro text hx
    subst hx
    have hlat := latin1OfAux_eq text.length text (Nat.le_refl _)
    constructor
    · intro hall
      have hfind : (runesOf text).find? (fun r => 256 ≤ r) = Option.none := by
        cases hf : (runesOf text).find? (fun r => 256 ≤ r) with
        | none => rfl
        | some r =>
          have hmem := List.find?_some hf
          have hmem2 := List.mem_of_find?_eq_some hf
          have := hall r hmem2
          simp at hmem
          omega
      rw [runesOf] at hfind
      rw [hfind] at hlat
      rw [happ, hcall,
        show decodeLatin1Bytes (.str text) = latin1OfAux text.length text from rfl,
        hlat]
      rfl
    · intro r₀ hfind
      rw [runesOf] at hfind
      rw [hfind] at hlat
      rw [happ, hcall,
        show decodeLatin1Bytes (.str text) = latin1OfAux text.length text from rfl,
        hlat]
  · intro hns
    have hdl : decodeLatin1Bytes x = .error .notString := by
      cases x <;> first | rfl | exact absurd rfl (hns _)
    rw [happ, hcall, hdl]

/-- C7 witness: the pure text "ab" decodes to `Bytes "ab"`; the two-rune
text "aĀ" (UTF-8 `61 C4 80`) contains the rune U+0100, so REDUCE fails
with the latin1 cannot-encode error; the non-string first argument `None`
makes REDUCE fail with the latin1 must-be-string error. -/
theorem c7_codecs_encode_latin1_witness :
    appReduce [] ⟨[.tuple [.str [97, 98], .str sLatin1],
        .class_ sCodecs sEncode], [], 0⟩ =
      .ok ⟨[.bytes [97, 98]], [], 0⟩ ∧
    appReduce [] ⟨[.tuple [.str [97, 196, 128], .str sLatin1],
        .class_ sCodecs sEncode], [], 0⟩ =
      .error (.codecsEncode (.cannotEncode 256)) ∧
    appReduce [] ⟨[.tuple [.none, .str sLatin1],
        .class_ sCodecs sEncode], [], 0⟩ =
      .error (.codecsEncode .notString) := by
  refine ⟨?_, ?_, ?_⟩
  · exact ((c7_codecs_encode_latin1 (.str [97, 98]) _ [] rfl).1 [97, 98] rfl).1
      (by decide)
  · exact ((c7_codecs_encode_latin1 (.str [97, 196, 128]) _ [] rfl).1
      [97, 196, 128] rfl).2 256 (by decide)
  · exact (c7_codecs_encode_latin1 .none _ [] rfl).2
      (fun text h => Value.noConfusion h)

/-! ## Claim C8: no mark escapes to the user or the memo

`MarkFree v` states that `v` contains no mark object at any nesting depth.
It is an inductive predicate because `Value` nests lists; there is no
constructor for `.mark`, so `MarkFree .mark` is false. -/

inductive MarkFree : Value → Prop where
  | noneF : MarkFree .none
  | boolF (b : Bool) : MarkFree (.bool b)
  | intF (i : Int) : MarkFree (.int i)
  | bigintF (z : Int) : MarkFree (.bigint z)
  | floatF (f : F64) : MarkFree (.float f)
  | strF (s : List Nat) : MarkFree (.str s)
  | bytesF (s : List Nat) : MarkFree (.bytes s)
  | bytearrayF (s : List Nat) : MarkFree (.bytearray s)
  | tupleF (vs : List Value) : (∀ v ∈ vs, MarkFree v) → MarkFree (.tuple vs)
  | listF (vs : List Value) : (∀ v ∈ vs, MarkFree v) → MarkFree (.list vs)
  | dictF (m : List (Value × Value)) :
      (∀ kv ∈ m, MarkFree kv.1) → (∀ kv ∈ m, MarkFree kv.2) → MarkFree (.dict m)
  | classF (m n : List Nat) : MarkFree (.class_ m n)
  | callF (m n : List Nat) (args : List Value) :
      (∀ v ∈ args, MarkFree v) → MarkFree (.call m n args)
  | refF (pid : Value) : MarkFree pid → MarkFree (.ref pid)

/-- Stack invariant: every slot is either the mark sentinel itself or a
mark-free value. -/
def StackOK (stk : List Value) : Prop := ∀ v ∈ stk, v = .mark ∨ MarkFree v

/-- Memo invariant: every stored value is mark-free. -/
def MemoOK (memo : List (List Nat × Value)) : Prop := ∀ kv ∈ memo, MarkFree kv.2

/-- Full decoder-state invariant. -/
def InvOK (st : DState) : Prop := StackOK st.stack ∧ MemoOK st.memo

theorem markFree_not_mark {v : Value} (h : MarkFree v) : v ≠ .mark := by
  cases h <;> exact fun hc => Value.noConfusion hc

theorem markFree_of_userOK {v : Value} (hok : userOK1 v = .ok ())
    (hv : v = .mark ∨ MarkFree v) : MarkFree v := by
  rcases hv with hv | hv
  · subst hv
    simp [userOK1, isMark] at hok
  · exact hv

theorem stackOK_cons {v : Value} {rest : List Value} :
    StackOK (v :: rest) ↔ (v = .mark ∨ MarkFree v) ∧ StackOK rest := by
  constructor
  · intro h
    exact ⟨h v (List.mem_cons_self _ _), fun w hw => h w (List.mem_cons_of_mem _ hw)⟩
  · rintro ⟨hv, hrest⟩ w hw
    rcases List.mem_cons.mp hw with hw | hw
    · subst hw
      exact hv
    · exact hrest w hw

theorem stackOK_push {v : Value} {rest : List Value}
    (hv : v = .mark ∨ MarkFree v) (h : StackOK rest) : StackOK (v :: rest) :=
  stackOK_cons.mpr ⟨hv, h⟩

theorem invOK_push {st : DState} {v : Value} (h : InvOK st) (hv : MarkFree v) :
    InvOK (pushV v st) :=
  ⟨stackOK_push (Or.inr hv) h.1, h.2⟩

theorem splitMark_ok {stk above below : List Value}
    (hsp : splitMark stk = some (above, below)) (h : StackOK stk) :
    (∀ v ∈ above, MarkFree v) ∧ StackOK below := by
  induction stk generalizing above with
  | nil => simp [splitMark] at hsp
  | cons v rest ih =>
    rw [splitMark] at hsp
    by_cases hm : isMark v
    · rw [if_pos hm] at hsp
      injection hsp with hsp
      injection hsp with h1 h2
      subst h1
      subst h2
      exact ⟨by simp, (stackOK_cons.mp h).2⟩
    · rw [if_neg hm] at hsp
      cases hsp2 : splitMark rest with
      | none => rw [hsp2] at hsp; exact Option.noConfusion hsp
      | some ab =>
        obtain ⟨a2, b2⟩ := ab
        rw [hsp2] at hsp
        injection hsp with hsp
        injection hsp with h1 h2
        subst h1
        subst h2
        obtain ⟨hv, hrest⟩ := stackOK_cons.mp h
        obtain ⟨ha2, hb2⟩ := ih hsp2 hrest
        refine ⟨fun w hw => ?_, hb2⟩
        rcases List.mem_cons.mp hw with hw | hw
        · subst hw
          rcases hv with hv | hv
          · subst hv
            simp [isMark] at hm
          · exact hv
        · exact ha2 w hw

theorem popUserV_ok {stk : List Value} {v : Value} {rest : List Value}
    (hp : popUserV stk = .ok (v, rest)) (h : StackOK stk) :
    MarkFree v ∧ StackOK rest := by
  cases stk with
  | nil => simp [popUserV, popV] at hp
  | cons w tail =>
    rw [popUserV] at hp
    simp only [popV] at hp
    cases hok : userOK1 w with
    | error e =>
      rw [hok] at hp
      exact Except.noConfusion hp
    | ok u =>
      rw [hok] at hp
      injection hp with hp
      injection hp with h1 h2
      subst h1
      subst h2
      obtain ⟨hw, htail⟩ := stackOK_cons.mp h
      refine ⟨?_, htail⟩
      exact markFree_of_userOK (by cases u; exact hok) hw

theorem memoSet_ok {memo : List (List Nat × Value)} {k : List Nat} {v : Value}
    (h : MemoOK memo) (hv : MarkFree v) : MemoOK (memoSet memo k v) := by
  induction memo with
  | nil =>
    intro kv hkv
    simp [memoSet] at hkv
    rw [hkv]
    exact hv
  | cons kv0 rest ih =>
    obtain ⟨k0, v0⟩ := kv0
    rw [memoSet]
    by_cases he : k0 = k
    · rw [if_pos (by simpa using he)]
      intro kv hkv
      rcases List.mem_cons.mp hkv with hkv | hkv
      · subst hkv
        exact hv
      · exact h kv (List.mem_cons_of_mem _ hkv)
    · rw [if_neg (by simpa using he)]
      intro kv hkv
      rcases List.mem_cons.mp hkv with hkv | hkv
      · subst hkv
        exact h (k0, v0) (List.mem_cons_self _ _)
      · exact ih (fun w hw => h w (List.mem_cons_of_mem _ hw)) kv hkv

theorem memoTop_ok {key : List Nat} {st st' : DState}
    (hm : memoTop key st = .ok st') (h : InvOK st) : InvOK st' := by
  rw [memoTop] at hm
  split at hm
  · exact Except.noConfusion hm
  next v rest hstk =>
    split at hm
    · exact Except.noConfusion hm
    next u hok =>
      injection hm with hm
      subst hm
      have hv : MarkFree v := by
        refine markFree_of_userOK (by cases u; exact hok) ?_
        exact h.1 v (by rw [hstk]; exact List.mem_cons_self _ _)
      exact ⟨h.1, memoSet_ok h.2 hv⟩

theorem mapSet_ok {m : List (Value × Value)} {k v : Value}
    (h : ∀ kv ∈ m, MarkFree kv.1 ∧ MarkFree kv.2) (hk : MarkFree k) (hv : MarkFree v) :
    ∀ kv ∈ mapSet m k v, MarkFree kv.1 ∧ MarkFree kv.2 := by
  induction m with
  | nil =>
    intro kv hkv
    simp [mapSet] at hkv
    rw [hkv]
    exact ⟨hk, hv⟩
  | cons kv0 rest ih =>
    obtain ⟨k0, v0⟩ := kv0
    rw [mapSet]
    by_cases he : goEq k0 k
    · rw [if_pos he]
      intro kv hkv
      rcases List.mem_cons.mp hkv with hkv | hkv
      · subst hkv
        exact ⟨(h (k0, v0) (List.mem_cons_self _ _)).1, hv⟩
      · exact h kv (List.mem_cons_of_mem _ hkv)
    · rw [if_neg he]
      intro kv hkv
      rcases List.mem_cons.mp hkv with hkv | hkv
      · subst hkv
        exact h (k0, v0) (List.mem_cons_self _ _)
      · exact ih (fun w hw => h w (List.mem_cons_of_mem _ hw)) kv hkv

theorem mapTryAssign_ok {m m' : List (Value × Value)} {k v : Value}
    (hm : mapTryAssign m k v = some m')
    (h : ∀ kv ∈ m, MarkFree kv.1 ∧ MarkFree kv.2) (hk : MarkFree k) (hv : MarkFree v) :
    ∀ kv ∈ m', MarkFree kv.1 ∧ MarkFree kv.2 := by
  rw [mapTryAssign] at hm
  by_cases hc : hashableKey k
  · rw [if_pos hc] at hm
    injection hm with hm
    subst hm
    exact mapSet_ok h hk hv
  · rw [if_neg hc] at hm
    exact Option.noConfusion hm

theorem mapAssignPairs_ok : ∀ (items : List Value) (m m' : List (Value × Value)),
    mapAssignPairs m items = some m' →
    (∀ kv ∈ m, MarkFree kv.1 ∧ MarkFree kv.2) → (∀ v ∈ items, MarkFree v) →
    ∀ kv ∈ m', MarkFree kv.1 ∧ MarkFree kv.2
  | [], m, m', hm, h, _ => by
    rw [mapAssignPairs] at hm
    injection hm with hm
    subst hm
    exact h
  | [_], _, _, hm, _, _ => by simp [mapAssignPairs] at hm
  | k :: v :: rest, m, m', hm, h, hitems => by
    rw [mapAssignPairs] at hm
    cases hta : mapTryAssign m k v with
    | none => rw [hta] at hm; exact Option.noConfusion hm
    | some m2 =>
      rw [hta] at hm
      have hk : MarkFree k := hitems k (by simp)
      have hv : MarkFree v := hitems v (by simp)
      have h2 := mapTryAssign_ok hta h hk hv
      exact mapAssignPairs_ok rest m2 m' hm h2 (fun w hw => hitems w (by simp [hw]))

theorem memoGet_ok {memo : List (List Nat × Value)} {k : List Nat} {v : Value}
    (hg : memoGet? memo k = some v) (h : MemoOK memo) : MarkFree v := by
  induction memo with
  | nil => simp [memoGet?] at hg
  | cons kv0 rest ih =>
    obtain ⟨k0, v0⟩ := kv0
    rw [memoGet?] at hg
    by_cases he : k0 = k
    · rw [if_pos (by simpa using he)] at hg
      injection hg with hg
      subst hg
      exact h (k0, v0) (List.mem_cons_self _ _)
    · rw [if_neg (by simpa using he)] at hg
      exact ih hg (fun w hw => h w (List.mem_cons_of_mem _ hw))

theorem invOK_of_push_eq {st st' : DState} {v : Value}
    (he : (Except.ok (pushV v st) : Except Err DState) = .ok st')
    (h : InvOK st) (hv : MarkFree v) : InvOK st' := by
  injection he with he
  subst he
  exact invOK_push h hv

theorem presAppMark {ch : Chunks} {st st' : DState}
    (happ : appMark ch st = .ok st') (h : InvOK st) : InvOK st' := by
  injection happ with happ
  subst happ
  exact ⟨stackOK_push (Or.inl rfl) h.1, h.2⟩

theorem presAppPop {ch : Chunks} {st st' : DState}
    (happ : appPop ch st = .ok st') (h : InvOK st) : InvOK st' := by
  rw [appPop] at happ
  split at happ
  · exact Except.noConfusion happ
  next v rest hstk =>
    injection happ with happ
    subst happ
    have h2 : StackOK (v :: rest) := hstk ▸ h.1
    exact ⟨(stackOK_cons.mp h2).2, h.2⟩

theorem presAppPopMark {ch : Chunks} {st st' : DState}
    (happ : appPopMark ch st = .ok st') (h : InvOK st) : InvOK st' := by
  injection happ with happ
  subst happ
  exact h

theorem presAppDup {ch : Chunks} {st st' : DState}
    (happ : appDup ch st = .ok st') (h : InvOK st) : InvOK st' := by
  rw [appDup] at happ
  split at happ
  · exact Except.noConfusion happ
  next v rest hstk =>
    injection happ with happ
    subst happ
    have h2 : StackOK (v :: rest) := hstk ▸ h.1
    obtain ⟨hv, hrest⟩ := stackOK_cons.mp h2
    exact ⟨stackOK_push hv (stackOK_push hv hrest), h.2⟩

theorem presAppFloat {ch : Chunks} {st st' : DState}
    (happ : appFloat ch st = .ok st') (h : InvOK st) : InvOK st' := by
  rcases ch with _ | ⟨l, _ | ⟨l2, tl⟩⟩
  · exact Except.noConfusion happ
  · rw [appFloat] at happ
    split at happ
    · exact Except.noConfusion happ
    · exact invOK_of_push_eq happ h (.floatF _)
  · exact Except.noConfusion happ

theorem presAppInt {ch : Chunks} {st st' : DState}
    (happ : appInt ch st = .ok st') (h : InvOK st) : InvOK st' := by
  rcases ch with _ | ⟨l, _ | ⟨l2, tl⟩⟩
  · exact Except.noConfusion happ
  · rw [appInt] at happ
    split_ifs at happ
    · exact invOK_of_push_eq happ h (.boolF _)
    · exact invOK_of_push_eq happ h (.boolF _)
    · split at happ
      · exact Except.noConfusion happ
      · exact invOK_of_push_eq happ h (.intF _)
  · exact Except.noConfusion happ

theorem presAppBinint {ch : Chunks} {st st' : DState}
    (happ : appBinint ch st = .ok st') (h : InvOK st) : InvOK st' := by
  rcases ch with _ | ⟨bs, _ | ⟨l2, tl⟩⟩
  · exact Except.noConfusion happ
  · exact invOK_of_push_eq happ h (.intF _)
  · exact Except.noConfusion happ

theorem presAppBinint1 {ch : Chunks} {st st' : DState}
    (happ : appBinint1 ch st = .ok st') (h : InvOK st) : InvOK st' := by
  rcases ch with _ | ⟨(_ | ⟨b, _ | ⟨b2, bt⟩⟩), _ | ⟨l2, tl⟩⟩ <;>
    first
    | exact Except.noConfusion happ
    | exact invOK_of_push_eq happ h (.intF _)

theorem presAppLong {ch : Chunks} {st st' : DState}
    (happ : appLong ch st = .ok st') (h : InvOK st) : InvOK st' := by
  rcases ch with _ | ⟨l, _ | ⟨l2, tl⟩⟩
  · exact Except.noConfusion happ
  · rw [appLong] at happ
    split_ifs at happ <;> try exact Except.noConfusion happ
    all_goals split at happ <;>
      first
      | exact Except.noConfusion happ
      | exact invOK_of_push_eq happ h (.bigintF _)
  · exact Except.noConfusion happ

theorem presAppLong1 {ch : Chunks} {st st' : DState}
    (happ : appLong1 ch st = .ok st') (h : InvOK st) : InvOK st' := by
  rcases ch with _ | ⟨payload, _ | ⟨l2, tl⟩⟩
  · exact Except.noConfusion happ
  · exact invOK_of_push_eq happ h (.bigintF _)
  · exact Except.noConfusion happ

theorem presAppBinint2 {ch : Chunks} {st st' : DState}
    (happ : appBinint2 ch st = .ok st') (h : InvOK st) : InvOK st' := by
  rcases ch with _ | ⟨bs, _ | ⟨l2, tl⟩⟩
  · exact Except.noConfusion happ
  · exact invOK_of_push_eq happ h (.intF _)
  · exact Except.noConfusion happ

theorem presAppNone {ch : Chunks} {st st' : DState}
    (happ : appNone ch st = .ok st') (h : InvOK st) : InvOK st' :=
  invOK_of_push_eq happ h .noneF

theorem presAppPersid {ch : Chunks} {st st' : DState}
    (happ : appPersid ch st = .ok st') (h : InvOK st) : InvOK st' := by
  rcases ch with _ | ⟨l, _ | ⟨l2, tl⟩⟩
  · exact Except.noConfusion happ
  · exact invOK_of_push_eq happ h (.refF _ (.strF _))
  · exact Except.noConfusion happ

theorem presAppBinpersid {ch : Chunks} {st st' : DState}
    (happ : appBinpersid ch st = .ok st') (h : InvOK st) : InvOK st' := by
  rw [appBinpersid] at happ
  split at happ
  · exact Except.noConfusion happ
  next pid rest hpu =>
    injection happ with happ
    subst happ
    obtain ⟨hpid, hrest⟩ := popUserV_ok hpu h.1
    exact ⟨stackOK_push (Or.inr (.refF _ hpid)) hrest, h.2⟩

theorem markFree_handleCall {protocol : Nat} {cm cn : List Nat} {argv : List Value}
    {v : Value} (hc : handleCall protocol cm cn argv = some (.ok v)) : MarkFree v := by
  rw [handleCall.eq_def] at hc
  by_cases h1 : cm = sCodecs ∧ cn = sEncode ∧ argv.length = 2 ∧
      isStrEq (argv.getD 1 .none) sLatin1 = true
  · rw [if_pos h1] at hc
    split at hc
    · injection hc with hc
      exact Except.noConfusion hc
    · injection hc with hc
      injection hc with hc
      subst hc
      exact .bytesF _
  · rw [if_neg h1] at hc
    by_cases h2 : cm = pybuiltinModule protocol ∧ cn = sBytearray
    · rw [if_pos h2] at hc
      rcases argv with _ | ⟨a0, _ | ⟨a1, _ | ⟨a2, tl⟩⟩⟩
      · exact Option.noConfusion hc
      · cases a0 <;>
          first
          | (injection hc; done)
          | (injection hc with hc; injection hc with hc; subst hc; exact .bytearrayF _)
          | (injection hc with hc; exact Except.noConfusion hc)
      · simp only [] at hc
        by_cases hd : isStrEq a1 sLatin1Dash = true
        · rw [if_pos hd] at hc
          injection hc with hc
          split at hc
          · exact Except.noConfusion hc
          · injection hc with hc
            subst hc
            exact .bytearrayF _
        · rw [if_neg hd] at hc
          exact Option.noConfusion hc
      · exact Option.noConfusion hc
    · rw [if_neg h2] at hc
      exact Option.noConfusion hc

theorem presAppReduce {ch : Chunks} {st st' : DState}
    (happ : appReduce ch st = .ok st') (h : InvOK st) : InvOK st' := by
  rw [appReduce] at happ
  split at happ
  next xargs xclass rest hstk =>
    have hst : StackOK (xargs :: xclass :: rest) := hstk ▸ h.1
    obtain ⟨hargs, hrest0⟩ := stackOK_cons.mp hst
    obtain ⟨hclass, hrest⟩ := stackOK_cons.mp hrest0
    split at happ
    next args =>
      have hargsMF : ∀ w ∈ args, MarkFree w := by
        rcases hargs with hx | hx
        · exact absurd hx (fun hx => Value.noConfusion hx)
        · cases hx
          assumption
      split at happ
      next cm cn =>
        split at happ
        next v2 hcall =>
          injection happ with happ
          subst happ
          exact ⟨stackOK_push (Or.inr (markFree_handleCall hcall)) hrest, h.2⟩
        · exact Except.noConfusion happ
        · injection happ with happ
          subst happ
          exact ⟨stackOK_push (Or.inr (.callF _ _ _ hargsMF)) hrest, h.2⟩
      · exact Except.noConfusion happ
    · exact Except.noConfusion happ
  · exact Except.noConfusion happ

theorem presAppString {ch : Chunks} {st st' : DState}
    (happ : appString ch st = .ok st') (h : InvOK st) : InvOK st' := by
  rcases ch with _ | ⟨l, _ | ⟨l2, tl⟩⟩
  · exact Except.noConfusion happ
  · rw [appString.eq_def] at happ
    simp only [] at happ
    split_ifs at happ <;> try exact Except.noConfusion happ
    all_goals split at happ <;> try exact Except.noConfusion happ
    all_goals split_ifs at happ <;> try exact Except.noConfusion happ
    all_goals split at happ <;>
      first
      | exact Except.noConfusion happ
      | exact invOK_of_push_eq happ h (.strF _)
  · exact Except.noConfusion happ

theorem presAppBinstring {ch : Chunks} {st st' : DState}
    (happ : appBinstring ch st = .ok st') (h : InvOK st) : InvOK st' := by
  rcases ch with _ | ⟨payload, _ | ⟨l2, tl⟩⟩
  · exact Except.noConfusion happ
  · exact invOK_of_push_eq happ h (.strF _)
  · exact Except.noConfusion happ

theorem presAppBinbytes {ch : Chunks} {st st' : DState}
    (happ : appBinbytes ch st = .ok st') (h : InvOK st) : InvOK st' := by
  rcases ch with _ | ⟨payload, _ | ⟨l2, tl⟩⟩
  · exact Except.noConfusion happ
  · exact invOK_of_push_eq happ h (.bytesF _)
  · exact Except.noConfusion happ

theorem presAppUnicode {ch : Chunks} {st st' : DState}
    (happ : appUnicode ch st = .ok st') (h : InvOK st) : InvOK st' := by
  rcases ch with _ | ⟨l, _ | ⟨l2, tl⟩⟩
  · exact Except.noConfusion happ
  · rw [appUnicode] at happ
    split at happ
    · exact Except.noConfusion happ
    · exact invOK_of_push_eq happ h (.strF _)
  · exact Except.noConfusion happ

theorem presAppBinunicode {ch : Chunks} {st st' : DState}
    (happ : appBinunicode ch st = .ok st') (h : InvOK st) : InvOK st' := by
  rcases ch with _ | ⟨payload, _ | ⟨l2, tl⟩⟩
  · exact Except.noConfusion happ
  · exact invOK_of_push_eq happ h (.strF _)
  · exact Except.noConfusion happ

theorem presAppAppend {ch : Chunks} {st st' : DState}
    (happ : appAppend ch st = .ok st') (h : InvOK st) : InvOK st' := by
  rw [appAppend] at happ
  split at happ
  next v l rest hstk =>
    have hst : StackOK (v :: l :: rest) := hstk ▸ h.1
    obtain ⟨hv, hrest0⟩ := stackOK_cons.mp hst
    obtain ⟨hl, hrest⟩ := stackOK_cons.mp hrest0
    split at happ
    · exact Except.noConfusion happ
    next u hok =>
      have hvMF : MarkFree v := markFree_of_userOK (by cases u; exact hok) hv
      split at happ
      next vs =>
        have hvsMF : ∀ w ∈ vs, MarkFree w := by
          rcases hl with hx | hx
          · exact absurd hx (fun hx => Value.noConfusion hx)
          · cases hx
            assumption
        injection happ with happ
        subst happ
        refine ⟨stackOK_push (Or.inr (.listF _ ?_)) hrest, h.2⟩
        intro w hw
        rcases List.mem_append.mp hw with hw | hw
        · exact hvsMF w hw
        · rw [List.mem_singleton.mp hw]
          exact hvMF
      · exact Except.noConfusion happ
  · exact Except.noConfusion happ

theorem presAppGlobal {ch : Chunks} {st st' : DState}
    (happ : appGlobal ch st = .ok st') (h : InvOK st) : InvOK st' := by
  rcases ch with _ | ⟨m1, _ | ⟨n1, _ | ⟨l3, tl⟩⟩⟩ <;>
    first
    | exact Except.noConfusion happ
    | exact invOK_of_push_eq happ h (.classF _ _)

/-- `appDict` with its `let` binding zeta-reduced, for `split`. -/
theorem appDict_eq (ch : Chunks) (st : DState) :
    appDict ch st =
      (match splitMark st.stack with
       | Option.none => .error .noMarker
       | some (above, below) =>
         if above.reverse.length % 2 ≠ 0 then .error .dictOddElements
         else
           match mapAssignPairs [] above.reverse with
           | Option.none => .error .invalidKeyType
           | some m => .ok { st with stack := .dict m :: below }) := rfl

theorem presAppDict {ch : Chunks} {st st' : DState}
    (happ : appDict ch st = .ok st') (h : InvOK st) : InvOK st' := by
  rw [appDict_eq] at happ
  split at happ
  · exact Except.noConfusion happ
  next above below hsp =>
    obtain ⟨habove, hbelow⟩ := splitMark_ok hsp h.1
    split_ifs at happ <;> try exact Except.noConfusion happ
    all_goals split at happ <;> try exact Except.noConfusion happ
    next m hma =>
      injection happ with happ
      subst happ
      have hm := mapAssignPairs_ok above.reverse [] m hma (by simp)
        (fun w hw => habove w (List.mem_reverse.mp hw))
      exact ⟨stackOK_push (Or.inr (.dictF _ (fun kv hkv => (hm kv hkv).1)
        (fun kv hkv => (hm kv hkv).2))) hbelow, h.2⟩

theorem presAppEmptyDict {ch : Chunks} {st st' : DState}
    (happ : appEmptyDict ch st = .ok st') (h : InvOK st) : InvOK st' :=
  invOK_of_push_eq happ h (.dictF _ (by simp) (by simp))

theorem presAppAppends {ch : Chunks} {st st' : DState}
    (happ : appAppends ch st = .ok st') (h : InvOK st) : InvOK st' := by
  rw [appAppends] at happ
  split at happ
  · exact Except.noConfusion happ
  next above below hsp =>
    obtain ⟨habove, hbelow⟩ := splitMark_ok hsp h.1
    split at happ
    · exact Except.noConfusion happ
    next l rest =>
      obtain ⟨hl, hrest⟩ := stackOK_cons.mp hbelow
      split at happ
      next vs =>
        have hvsMF : ∀ w ∈ vs, MarkFree w := by
          rcases hl with hx | hx
          · exact absurd hx (fun hx => Value.noConfusion hx)
          · cases hx
            assumption
        injection happ with happ
        subst happ
        refine ⟨stackOK_push (Or.inr (.listF _ ?_)) hrest, h.2⟩
        intro w hw
        rcases List.mem_append.mp hw with hw | hw
        · exact hvsMF w hw
        · exact habove w (List.mem_reverse.mp hw)
      · exact Except.noConfusion happ

theorem presAppGet {ch : Chunks} {st st' : DState}
    (happ : appGet ch st = .ok st') (h : InvOK st) : InvOK st' := by
  rcases ch with _ | ⟨l, _ | ⟨l2, tl⟩⟩
  · exact Except.noConfusion happ
  · rw [appGet] at happ
    split at happ
    next v hg => exact invOK_of_push_eq happ h (memoGet_ok hg h.2)
    · exact Except.noConfusion happ
  · exact Except.noConfusion happ

theorem presAppBinget {ch : Chunks} {st st' : DState}
    (happ : appBinget ch st = .ok st') (h : InvOK st) : InvOK st' := by
  rcases ch with _ | ⟨(_ | ⟨b, _ | ⟨b2, bt⟩⟩), _ | ⟨l2, tl⟩⟩ <;>
    try exact Except.noConfusion happ
  rw [appBinget] at happ
  split at happ
  next v hg => exact invOK_of_push_eq happ h (memoGet_ok hg h.2)
  · exact Except.noConfusion happ

theorem presAppLongBinget {ch : Chunks} {st st' : DState}
    (happ : appLongBinget ch st = .ok st') (h : InvOK st) : InvOK st' := by
  rcases ch with _ | ⟨bs, _ | ⟨l2, tl⟩⟩
  · exact Except.noConfusion happ
  · rw [appLongBinget] at happ
    split at happ
    next v hg => exact invOK_of_push_eq happ h (memoGet_ok hg h.2)
    · exact Except.noConfusion happ
  · exact Except.noConfusion happ

theorem presAppBool {b : Bool} {ch : Chunks} {st st' : DState}
    (happ : appBool b ch st = .ok st') (h : InvOK st) : InvOK st' :=
  invOK_of_push_eq happ h (.boolF _)

theorem presAppList {ch : Chunks} {st st' : DState}
    (happ : appList ch st = .ok st') (h : InvOK st) : InvOK st' := by
  rw [appList] at happ
  split at happ
  · exact Except.noConfusion happ
  next above below hsp =>
    obtain ⟨habove, hbelow⟩ := splitMark_ok hsp h.1
    injection happ with happ
    subst happ
    exact ⟨stackOK_push (Or.inr (.listF _
      (fun w hw => habove w (List.mem_reverse.mp hw)))) hbelow, h.2⟩

theorem presAppTuple {ch : Chunks} {st st' : DState}
    (happ : appTuple ch st = .ok st') (h : InvOK st) : InvOK st' := by
  rw [appTuple] at happ
  split at happ
  · exact Except.noConfusion happ
  next above below hsp =>
    obtain ⟨habove, hbelow⟩ := splitMark_ok hsp h.1
    injection happ with happ
    subst happ
    exact ⟨stackOK_push (Or.inr (.tupleF _
      (fun w hw => habove w (List.mem_reverse.mp hw)))) hbelow, h.2⟩

theorem presAppTupleN {n : Nat} {ch : Chunks} {st st' : DState}
    (happ : appTupleN n ch st = .ok st') (h : InvOK st) : InvOK st' := by
  rw [appTupleN] at happ
  split_ifs at happ with h1 h2 <;> try exact Except.noConfusion happ
  all_goals
    injection happ with happ
    subst happ
    have htake : ∀ w ∈ (st.stack.take n).reverse, MarkFree w := by
      intro w hw
      have hw2 : w ∈ st.stack.take n := List.mem_reverse.mp hw
      rcases h.1 w (List.mem_of_mem_take hw2) with hx | hx
      · subst hx
        exact absurd (List.any_eq_true.mpr ⟨Value.mark, hw2, rfl⟩) h2
      · exact hx
    refine ⟨stackOK_push (Or.inr (.tupleF _ htake)) ?_, h.2⟩
    intro w hw
    exact h.1 w (List.mem_of_mem_drop hw)

theorem presAppPut {ch : Chunks} {st st' : DState}
    (happ : appPut ch st = .ok st') (h : InvOK st) : InvOK st' := by
  rcases ch with _ | ⟨l, _ | ⟨l2, tl⟩⟩ <;>
    first
    | exact Except.noConfusion happ
    | exact memoTop_ok happ h

theorem presAppBinput {ch : Chunks} {st st' : DState}
    (happ : appBinput ch st = .ok st') (h : InvOK st) : InvOK st' := by
  rcases ch with _ | ⟨(_ | ⟨b, _ | ⟨b2, bt⟩⟩), _ | ⟨l2, tl⟩⟩ <;>
    first
    | exact Except.noConfusion happ
    | exact memoTop_ok happ h

theorem presAppLongBinput {ch : Chunks} {st st' : DState}
    (happ : appLongBinput ch st = .ok st') (h : InvOK st) : InvOK st' := by
  rcases ch with _ | ⟨bs, _ | ⟨l2, tl⟩⟩ <;>
    first
    | exact Except.noConfusion happ
    | exact memoTop_ok happ h

theorem presAppSetitem {ch : Chunks} {st st' : DState}
    (happ : appSetitem ch st = .ok st') (h : InvOK st) : InvOK st' := by
  rw [appSetitem] at happ
  split at happ
  next v k m rest hstk =>
    have hst : StackOK (v :: k :: m :: rest) := hstk ▸ h.1
    obtain ⟨hv, hrest0⟩ := stackOK_cons.mp hst
    obtain ⟨hk, hrest1⟩ := stackOK_cons.mp hrest0
    obtain ⟨hm, hrest⟩ := stackOK_cons.mp hrest1
    split at happ
    · exact Except.noConfusion happ
    next uk hokk =>
      split at happ
      · exact Except.noConfusion happ
      next uv hokv =>
        have hkMF : MarkFree k := markFree_of_userOK (by cases uk; exact hokk) hk
        have hvMF : MarkFree v := markFree_of_userOK (by cases uv; exact hokv) hv
        split at happ
        next pairs =>
          have hpairs : ∀ kv ∈ pairs, MarkFree kv.1 ∧ MarkFree kv.2 := by
            rcases hm with hx | hx
            · exact absurd hx (fun hx => Value.noConfusion hx)
            · cases hx
              next hk1 hk2 => exact fun kv hkv => ⟨hk1 kv hkv, hk2 kv hkv⟩
          split at happ
          next pairs2 hta =>
            injection happ with happ
            subst happ
            have hp2 := mapTryAssign_ok hta hpairs hkMF hvMF
            exact ⟨stackOK_push (Or.inr (.dictF _ (fun kv hkv => (hp2 kv hkv).1)
              (fun kv hkv => (hp2 kv hkv).2))) hrest, h.2⟩
          · exact Except.noConfusion happ
        · exact Except.noConfusion happ
  · exact Except.noConfusion happ

theorem presAppSetitems {ch : Chunks} {st st' : DState}
    (happ : appSetitems ch st = .ok st') (h : InvOK st) : InvOK st' := by
  rw [appSetitems] at happ
  split at happ
  · exact Except.noConfusion happ
  next above below hsp =>
    obtain ⟨habove, hbelow⟩ := splitMark_ok hsp h.1
    split at happ
    · exact Except.noConfusion happ
    next l rest =>
      obtain ⟨hl, hrest⟩ := stackOK_cons.mp hbelow
      split at happ
      next pairs =>
        have hpairs : ∀ kv ∈ pairs, MarkFree kv.1 ∧ MarkFree kv.2 := by
          rcases hl with hx | hx
          · exact absurd hx (fun hx => Value.noConfusion hx)
          · cases hx
            next hk1 hk2 => exact fun kv hkv => ⟨hk1 kv hkv, hk2 kv hkv⟩
        split_ifs at happ <;> try exact Except.noConfusion happ
        all_goals split at happ <;> try exact Except.noConfusion happ
        next pairs2 hma =>
          injection happ with happ
          subst happ
          have hp2 := mapAssignPairs_ok above.reverse pairs pairs2 hma hpairs
            (fun w hw => habove w (List.mem_reverse.mp hw))
          exact ⟨stackOK_push (Or.inr (.dictF _ (fun kv hkv => (hp2 kv hkv).1)
            (fun kv hkv => (hp2 kv hkv).2))) hrest, h.2⟩
      · exact Except.noConfusion happ

theorem presAppBinfloat {ch : Chunks} {st st' : DState}
    (happ : appBinfloat ch st = .ok st') (h : InvOK st) : InvOK st' := by
  rcases ch with _ | ⟨bs, _ | ⟨l2, tl⟩⟩
  · exact Except.noConfusion happ
  · exact invOK_of_push_eq happ h (.floatF _)
  · exact Except.noConfusion happ

theorem presAppFrame {ch : Chunks} {st st' : DState}
    (happ : appFrame ch st = .ok st') (h : InvOK st) : InvOK st' := by
  injection happ with happ
  subst happ
  exact h

theorem presAppStackGlobal {ch : Chunks} {st st' : DState}
    (happ : appStackGlobal ch st = .ok st') (h : InvOK st) : InvOK st' := by
  rw [appStackGlobal] at happ
  split at happ
  next xname xmodule rest hstk =>
    have hst : StackOK (xname :: xmodule :: rest) := hstk ▸ h.1
    obtain ⟨_, hrest0⟩ := stackOK_cons.mp hst
    obtain ⟨_, hrest⟩ := stackOK_cons.mp hrest0
    split at happ
    next n =>
      split at happ
      next m =>
        injection happ with happ
        subst happ
        exact ⟨stackOK_push (Or.inr (.classF _ _)) hrest, h.2⟩
      · exact Except.noConfusion happ
    · exact Except.noConfusion happ
  · exact Except.noConfusion happ

theorem presAppMemoize {ch : Chunks} {st st' : DState}
    (happ : appMemoize ch st = .ok st') (h : InvOK st) : InvOK st' :=
  memoTop_ok happ h

theorem presAppBytearray8 {ch : Chunks} {st st' : DState}
    (happ : appBytearray8 ch st = .ok st') (h : InvOK st) : InvOK st' := by
  rcases ch with _ | ⟨payload, _ | ⟨l2, tl⟩⟩
  · exact Except.noConfusion happ
  · exact invOK_of_push_eq happ h (.bytearrayF _)
  · exact Except.noConfusion happ

theorem presAppProto {ch : Chunks} {st st' : DState}
    (happ : appProto ch st = .ok st') (h : InvOK st) : InvOK st' := by
  rcases ch with _ | ⟨(_ | ⟨b, _ | ⟨b2, bt⟩⟩), _ | ⟨l2, tl⟩⟩ <;>
    try exact Except.noConfusion happ
  rw [appProto] at happ
  split_ifs at happ <;> try exact Except.noConfusion happ
  all_goals
    injection happ with happ
    subst happ
    exact h

theorem presAppEmptyList {ch : Chunks} {st st' : DState}
    (happ : appEmptyList ch st = .ok st') (h : InvOK st) : InvOK st' :=
  invOK_of_push_eq happ h (.listF _ (by simp))

theorem presAppEmptyTuple {ch : Chunks} {st st' : DState}
    (happ : appEmptyTuple ch st = .ok st') (h : InvOK st) : InvOK st' :=
  invOK_of_push_eq happ h (.tupleF _ (by simp))

set_option maxHeartbeats 4000000 in
/-- Every opcode handler's state update preserves the decoder invariant. -/
theorem dispatch_preserves {key : Nat} {reader : RdM Chunks}
    {app : Chunks → DState → Except Err DState} {ch : Chunks} {st st' : DState}
    (hdp : dispatch key = some (reader, app))
    (happ : app ch st = .ok st') (h : InvOK st) : InvOK st' := by
  by_cases hk1 : key = opMark
  · subst hk1; injection hdp with hdp; injection hdp with hr ha; subst ha; exact presAppMark happ h
  by_cases hk2 : key = opPop
  · subst hk2; injection hdp with hdp; injection hdp with hr ha; subst ha; exact presAppPop happ h
  by_cases hk3 : key = opPopMark
  · subst hk3; injection hdp with hdp; injection hdp with hr ha; subst ha; exact presAppPopMark happ h
  by_cases hk4 : key = opDup
  · subst hk4; injection hdp with hdp; injection hdp with hr ha; subst ha; exact presAppDup happ h
  by_cases hk5 : key = opFloat
  · subst hk5; injection hdp with hdp; injection hdp with hr ha; subst ha; exact presAppFloat happ h
  by_cases hk6 : key = opInt
  · subst hk6; injection hdp with hdp; injection hdp with hr ha; subst ha; exact presAppInt happ h
  by_cases hk7 : key = opBinint
  · subst hk7; injection hdp with hdp; injection hdp with hr ha; subst ha; exact presAppBinint happ h
  by_cases hk8 : key = opBinint1
  · subst hk8; injection hdp with hdp; injection hdp with hr ha; subst ha; exact presAppBinint1 happ h
  by_cases hk9 : key = opLong
  · subst hk9; injection hdp with hdp; injection hdp with hr ha; subst ha; exact presAppLong happ h
  by_cases hk10 : key = opLong1
  · subst hk10; injection hdp with hdp; injection hdp with hr ha; subst ha; exact presAppLong1 happ h
  by_cases hk11 : key = opBinint2
  · subst hk11; injection hdp with hdp; injection hdp with hr ha; subst ha; exact presAppBinint2 happ h
  by_cases hk12 : key = opNone
  · subst hk12; injection hdp with hdp; injection hdp with hr ha; subst ha; exact presAppNone happ h
  by_cases hk13 : key = opPersid
  · subst hk13; injection hdp with hdp; injection hdp with hr ha; subst ha; exact presAppPersid happ h
  by_cases hk14 : key = opBinpersid
  · subst hk14; injection hdp with hdp; injection hdp with hr ha; subst ha; exact presAppBinpersid happ h
  by_cases hk15 : key = opReduce
  · subst hk15; injection hdp with hdp; injection hdp with hr ha; subst ha; exact presAppReduce happ h
  by_cases hk16 : key = opString
  · subst hk16; injection hdp with hdp; injection hdp with hr ha; subst ha; exact presAppString happ h
  by_cases hk17 : key = opBinstring
  · subst hk17; injection hdp with hdp; injection hdp with hr ha; subst ha; exact presAppBinstring happ h
  by_cases hk18 : key = opShortBinstring
  · subst hk18; injection hdp with hdp; injection hdp with hr ha; subst ha; exact presAppBinstring happ h
  by_cases hk19 : key = opUnicode
  · subst hk19; injection hdp with hdp; injection hdp with hr ha; subst ha; exact presAppUnicode happ h
  by_cases hk20 : key = opBinunicode
  · subst hk20; injection hdp with hdp; injection hdp with hr ha; subst ha; exact presAppBinunicode happ h
  by_cases hk21 : key = opAppend
  · subst hk21; injection hdp with hdp; injection hdp with hr ha; subst ha; exact presAppAppend happ h
  by_cases hk22 : key = opBuild
  · subst hk22; injection hdp with hdp; injection hdp with hr ha; subst ha; exact Except.noConfusion happ
  by_cases hk23 : key = opGlobal
  · subst hk23; injection hdp with hdp; injection hdp with hr ha; subst ha; exact presAppGlobal happ h
  by_cases hk24 : key = opDict
  · subst hk24; injection hdp with hdp; injection hdp with hr ha; subst ha; exact presAppDict happ h
  by_cases hk25 : key = opEmptyDict
  · subst hk25; injection hdp with hdp; injection hdp with hr ha; subst ha; exact presAppEmptyDict happ h
  by_cases hk26 : key = opAppends
  · subst hk26; injection hdp with hdp; injection hdp with hr ha; subst ha; exact presAppAppends happ h
  by_cases hk27 : key = opGet
  · subst hk27; injection hdp with hdp; injection hdp with hr ha; subst ha; exact presAppGet happ h
  by_cases hk28 : key = opBinget
  · subst hk28; injection hdp with hdp; injection hdp with hr ha; subst ha; exact presAppBinget happ h
  by_cases hk29 : key = opInst
  · subst hk29; injection hdp with hdp; injection hdp with hr ha; subst ha; exact Except.noConfusion happ
  by_cases hk30 : key = opLongBinget
  · subst hk30; injection hdp with hdp; injection hdp with hr ha; subst ha; exact presAppLongBinget happ h
  by_cases hk31 : key = opList
  · subst hk31; injection hdp with hdp; injection hdp with hr ha; subst ha; exact presAppList happ h
  by_cases hk32 : key = opEmptyList
  · subst hk32; injection hdp with hdp; injection hdp with hr ha; subst ha; exact presAppEmptyList happ h
  by_cases hk33 : key = opObj
  · subst hk33; injection hdp with hdp; injection hdp with hr ha; subst ha; exact Except.noConfusion happ
  by_cases hk34 : key = opPut
  · subst hk34; injection hdp with hdp; injection hdp with hr ha; subst ha; exact presAppPut happ h
  by_cases hk35 : key = opBinput
  · subst hk35; injection hdp with hdp; injection hdp with hr ha; subst ha; exact presAppBinput happ h
  by_cases hk36 : key = opLongBinput
  · subst hk36; injection hdp with hdp; injection hdp with hr ha; subst ha; exact presAppLongBinput happ h
  by_cases hk37 : key = opSetitem
  · subst hk37; injection hdp with hdp; injection hdp with hr ha; subst ha; exact presAppSetitem happ h
  by_cases hk38 : key = opTuple
  · subst hk38; injection hdp with hdp; injection hdp with hr ha; subst ha; exact presAppTuple happ h
  by_cases hk39 : key = opTuple1
  · subst hk39; injection hdp with hdp; injection hdp with hr ha; subst ha; exact presAppTupleN happ h
  by_cases hk40 : key = opTuple2
  · subst hk40; injection hdp with hdp; injection hdp with hr ha; subst ha; exact presAppTupleN happ h
  by_cases hk41 : key = opTuple3
  · subst hk41; injection hdp with hdp; injection hdp with hr ha; subst ha; exact presAppTupleN happ h
  by_cases hk42 : key = opEmptyTuple
  · subst hk42; injection hdp with hdp; injection hdp with hr ha; subst ha; exact presAppEmptyTuple happ h
  by_cases hk43 : key = opSetitems
  · subst hk43; injection hdp with hdp; injection hdp with hr ha; subst ha; exact presAppSetitems happ h
  by_cases hk44 : key = opBinfloat
  · subst hk44; injection hdp with hdp; injection hdp with hr ha; subst ha; exact presAppBinfloat happ h
  by_cases hk45 : key = opNewfalse
  · subst hk45; injection hdp with hdp; injection hdp with hr ha; subst ha; exact presAppBool happ h
  by_cases hk46 : key = opNewtrue
  · subst hk46; injection hdp with hdp; injection hdp with hr ha; subst ha; exact presAppBool happ h
  by_cases hk47 : key = opBinbytes
  · subst hk47; injection hdp with hdp; injection hdp with hr ha; subst ha; exact presAppBinbytes happ h
  by_cases hk48 : key = opShortBinbytes
  · subst hk48; injection hdp with hdp; injection hdp with hr ha; subst ha; exact presAppBinbytes happ h
  by_cases hk49 : key = opFrame
  · subst hk49; injection hdp with hdp; injection hdp with hr ha; subst ha; exact presAppFrame happ h
  by_cases hk50 : key = opShortBinUnicode
  · subst hk50; injection hdp with hdp; injection hdp with hr ha; subst ha; exact presAppBinunicode happ h
  by_cases hk51 : key = opStackGlobal
  · subst hk51; injection hdp with hdp; injection hdp with hr ha; subst ha; exact presAppStackGlobal happ h
  by_cases hk52 : key = opMemoize
  · subst hk52; injection hdp with hdp; injection hdp with hr ha; subst ha; exact presAppMemoize happ h
  by_cases hk53 : key = opBytearray8
  · subst hk53; injection hdp with hdp; injection hdp with hr ha; subst ha; exact presAppBytearray8 happ h
  by_cases hk54 : key = opNextBuffer
  · subst hk54; injection hdp with hdp; injection hdp with hr ha; subst ha; exact Except.noConfusion happ
  by_cases hk55 : key = opReadOnlyBuffer
  · subst hk55; injection hdp with hdp; injection hdp with hr ha; subst ha; exact Except.noConfusion happ
  by_cases hk56 : key = opProto
  · subst hk56; injection hdp with hdp; injection hdp with hr ha; subst ha; exact presAppProto happ h
  rw [dispatch, if_neg hk1, if_neg hk2, if_neg hk3, if_neg hk4, if_neg hk5, if_neg hk6, if_neg hk7, if_neg hk8, if_neg hk9, if_neg hk10, if_neg hk11, if_neg hk12, if_neg hk13, if_neg hk14, if_neg hk15, if_neg hk16, if_neg hk17, if_neg hk18, if_neg hk19, if_neg hk20, if_neg hk21, if_neg hk22, if_neg hk23, if_neg hk24, if_neg hk25, if_neg hk26, if_neg hk27, if_neg hk28, if_neg hk29, if_neg hk30, if_neg hk31, if_neg hk32, if_neg hk33, if_neg hk34, if_neg hk35, if_neg hk36, if_neg hk37, if_neg hk38, if_neg hk39, if_neg hk40, if_neg hk41, if_neg hk42, if_neg hk43, if_neg hk44, if_neg hk45, if_neg hk46, if_neg hk47, if_neg hk48, if_neg hk49, if_neg hk50, if_neg hk51, if_neg hk52, if_neg hk53, if_neg hk54, if_neg hk55, if_neg hk56] at hdp
  exact Option.noConfusion hdp

/-- The dispatch loop preserves the invariant, and the value delivered at
STOP is mark-free (it goes through `popUser`). -/
theorem decodeLoop_markFree : ∀ (fuel : Nat) (st : DState) (s : List Nat)
    (insn : Nat) (v : Value) (st' : DState) (rest : List Nat),
    decodeLoop fuel st s insn = .ok (v, st', rest) → InvOK st →
    MarkFree v ∧ InvOK st' := by
  intro fuel
  induction fuel with
  | zero =>
    intro st s insn v st' rest hdec _
    simp [decodeLoop] at hdec
  | succ fuel ih =>
    intro st s insn v st' rest hdec h
    cases s with
    | nil =>
      rw [decodeLoop] at hdec
      exact Except.noConfusion hdec
    | cons key s2 =>
      rw [decodeLoop] at hdec
      by_cases hstop : key = opStop
      · rw [if_pos hstop] at hdec
        split at hdec
        · exact Except.noConfusion hdec
        next v0 rest0 hpu =>
          injection hdec with hdec
          injection hdec with h1 h2
          subst h1
          injection h2 with h2 h3
          subst h2
          obtain ⟨hv, hrest⟩ := popUserV_ok hpu h.1
          exact ⟨hv, hrest, h.2⟩
      · rw [if_neg hstop] at hdec
        split at hdec
        · exact Except.noConfusion hdec
        next reader app hdp =>
          split at hdec
          · exact Except.noConfusion hdec
          next chunks s3 hrun =>
            split at hdec
            · exact Except.noConfusion hdec
            next st2 happ =>
              exact ih st2 s3 (insn + 1) v st' rest hdec
                (dispatch_preserves hdp happ h)

/-- Erasing the retained state from `decodeLoopSt` gives back
`decodeLoop`: the two are the same algorithm. -/
theorem decodeLoopSt_erase : ∀ (fuel : Nat) (st : DState) (s : List Nat)
    (insn : Nat),
    decodeLoop fuel st s insn =
      (decodeLoopSt fuel st s insn).mapError Prod.fst := by
  intro fuel
  induction fuel with
  | zero => intro st s insn; rfl
  | succ fuel ih =>
    intro st s insn
    cases s with
    | nil => rfl
    | cons key s2 =>
      rw [decodeLoop, decodeLoopSt]
      by_cases hstop : key = opStop
      · rw [if_pos hstop, if_pos hstop]
        cases hpu : popUserV st.stack with
        | error e => rfl
        | ok vr =>
          obtain ⟨v, rest⟩ := vr
          rfl
      · rw [if_neg hstop, if_neg hstop]
        cases hdp : dispatch key with
        | none => rfl
        | some rp =>
          obtain ⟨reader, app⟩ := rp
          simp only []
          cases hrun : run reader s2 with
          | error e => rfl
          | ok cs =>
            obtain ⟨chunks, s3⟩ := cs
            simp only []
            cases happ : app chunks st with
            | error e => rfl
            | ok st2 => exact ih st2 s3 (insn + 1)

/-- The retained state of a failing dispatch-loop run still satisfies the
decoder invariant: every error site returns the current (invariant-
preserving) state. -/
theorem decodeLoopSt_inv_error : ∀ (fuel : Nat) (st : DState) (s : List Nat)
    (insn : Nat) (e : Err) (stE : DState),
    decodeLoopSt fuel st s insn = .error (e, stE) → InvOK st → InvOK stE := by
  intro fuel
  induction fuel with
  | zero =>
    intro st s insn e stE hdec h
    rw [decodeLoopSt] at hdec
    injection hdec with hdec
    injection hdec with h1 h2
    subst h2
    exact h
  | succ fuel ih =>
    intro st s insn e stE hdec h
    cases s with
    | nil =>
      rw [decodeLoopSt] at hdec
      injection hdec with hdec
      injection hdec with h1 h2
      subst h2
      exact h
    | cons key s2 =>
      rw [decodeLoopSt] at hdec
      by_cases hstop : key = opStop
      · rw [if_pos hstop] at hdec
        split at hdec
        next e0 hpu =>
          injection hdec with hdec
          injection hdec with h1 h2
          subst h2
          exact h
        · exact Except.noConfusion hdec
      · rw [if_neg hstop] at hdec
        split at hdec
        · injection hdec with hdec
          injection hdec with h1 h2
          subst h2
          exact h
        next reader app hdp =>
          split at hdec
          · injection hdec with hdec
            injection hdec with h1 h2
            subst h2
            exact h
          next chunks s3 hrun =>
            split at hdec
            · injection hdec with hdec
              injection hdec with h1 h2
              subst h2
              exact h
            next st2 happ =>
              exact ih st2 s3 (insn + 1) e stE hdec
                (dispatch_preserves hdp happ h)

/-- C8: the mark object never escapes.  A successful `Decode` of a fresh
decoder returns a value containing no mark at any nesting depth (inside
tuples, lists, dict keys and values, `Call` arguments and `Ref` pids)
and leaves only mark-free values in the memo; from any decoder state
satisfying the invariant (e.g. after any number of earlier `Decode`
calls), both a successful and a failing `Decode` leave only mark-free
values in the (retained) memo - so no mark is ever stored in the memo;
and the two operations that would expose a mark - `popUser` returning
the top of the stack to the user, and `memoTop` storing the top of the
stack into the memo - fail with the mark-escape error `ErrNoMarkUse`
when a mark is on top, instead of letting it through. -/
theorem c8_no_mark_escape :
    (∀ (B : List Nat) (v : Value) (st' : DState) (rest : List Nat),
      decodeD B = .ok (v, st', rest) →
      MarkFree v ∧ ∀ kv ∈ st'.memo, MarkFree kv.2) ∧
    (∀ (st : DState) (B : List Nat) (v : Value) (st' : DState) (rest : List Nat),
      InvOK st → decodeFromSt st B = .ok (v, st', rest) →
      MarkFree v ∧ ∀ kv ∈ st'.memo, MarkFree kv.2) ∧
    (∀ (st : DState) (B : List Nat) (e : Err) (stE : DState),
      InvOK st → decodeFromSt st B = .error (e, stE) →
      ∀ kv ∈ stE.memo, MarkFree kv.2) ∧
    (∀ stk : List Value, popUserV (.mark :: stk) = .error .noMarkUse) ∧
    (∀ (key : List Nat) (st : DState) (stk : List Value),
      st.stack = .mark :: stk → memoTop key st = .error .noMarkUse) := by
  refine ⟨?_, ?_, ?_, fun stk => rfl, ?_⟩
  · intro B v st' rest hdec
    have h0 : InvOK initState :=
      ⟨by intro w hw; simp [initState] at hw, by intro w hw; simp [initState] at hw⟩
    obtain ⟨hv, hinv⟩ :=
      decodeLoop_markFree (B.length + 1) initState B 0 v st' rest hdec h0
    exact ⟨hv, hinv.2⟩
  · intro st B v st' rest h hdec
    have hdec1 : decodeLoopSt (B.length + 1) st B 0 = .ok (v, st', rest) := hdec
    have hdec2 : decodeLoop (B.length + 1) st B 0 = .ok (v, st', rest) := by
      rw [decodeLoopSt_erase (B.length + 1) st B 0, hdec1]
      rfl
    obtain ⟨hv, hinv⟩ :=
      decodeLoop_markFree (B.length + 1) st B 0 v st' rest hdec2 h
    exact ⟨hv, hinv.2⟩
  · intro st B e stE h hdec
    exact (decodeLoopSt_inv_error (B.length + 1) st B 0 e stE hdec h).2
  · intro key st stk hstk
    rw [memoTop, hstk]
    rfl

/-- C8 witness: decoding `N.` returns `None`, which is mark-free, with an
empty (hence mark-free) memo; the failing decode of the lone byte `I`
retains an empty (hence mark-free) memo; `popUser` and `memoTop` each
fail with the mark-escape error on a mark-topped stack. -/
theorem c8_no_mark_escape_witness :
    (MarkFree Value.none ∧ ∀ kv ∈ (DState.mk [] [] 0).memo, MarkFree kv.2) ∧
    (∀ kv ∈ (DState.mk [] [] 0).memo, MarkFree kv.2) ∧
    popUserV [Value.mark] = .error .noMarkUse ∧
    memoTop [48] (DState.mk [Value.mark] [] 0) = .error .noMarkUse := by
  refine ⟨?_, ?_, ?_, ?_⟩
  · exact c8_no_mark_escape.1 [78, 46] .none ⟨[], [], 0⟩ [] rfl
  · exact c8_no_mark_escape.2.2.1 initState [73] .unexpectedEOF ⟨[], [], 0⟩
      ⟨by intro w hw; simp [initState] at hw,
        by intro w hw; simp [initState] at hw⟩ rfl
  · exact c8_no_mark_escape.2.2.2.1 []
  · exact c8_no_mark_escape.2.2.2.2 [48] ⟨[Value.mark], [], 0⟩ [] rfl

/-- The loop's error normalization never produces plain `io.EOF`. -/
theorem normE_ne_eof (e : Err) (k p : Nat) : normE e k p ≠ .eof := by
  cases e <;> simp [normE]

/-- `popUser` fails only with stack-underflow or mark-escape errors. -/
theorem popUserV_ne_eof (stk : List Value) : popUserV stk ≠ .error .eof := by
  cases stk with
  | nil => simp [popUserV, popV]
  | cons v rest =>
    by_cases hm : isMark v <;> simp [popUserV, popV, userOK1, hm]

/-- Once at least one opcode has been consumed (or before the input is
known empty), the dispatch loop never returns plain `io.EOF`: end of input
at the dispatch read is normalized when `insn ≠ 0`, and every opcode
handler's end-of-input error is normalized by `normE`. -/
theorem decodeLoop_ne_eof : ∀ (fuel : Nat) (st : DState) (s : List Nat) (insn : Nat),
    (insn ≠ 0 ∨ s ≠ []) → decodeLoop fuel st s insn ≠ .error .eof := by
  intro fuel
  induction fuel with
  | zero =>
    intro st s insn _
    simp [decodeLoop]
  | succ fuel ih =>
    intro st s insn h
    match s with
    | [] =>
      have hinsn : insn ≠ 0 := by
        rcases h with h | h
        · exact h
        · exact absurd rfl h
      rw [decodeLoop]
      rw [if_neg hinsn]
      simp
    | key :: s2 =>
      rw [decodeLoop]
      by_cases hstop : key = opStop
      · rw [if_pos hstop]
        cases hpu : popUserV st.stack with
        | error e =>
          simp only
          intro hcontra
          have : e = .eof := by
            injection hcontra
          subst this
          exact popUserV_ne_eof st.stack hpu
        | ok vr => simp
      · rw [if_neg hstop]
        cases hdp : dispatch key with
        | none => simp
        | some rp =>
          obtain ⟨reader, app⟩ := rp
          simp only
          cases hrun : run reader s2 with
          | error e =>
            simp only
            intro hcontra
            have : normE e key (insn + 1) = .eof := by
              injection hcontra
            exact normE_ne_eof e key (insn + 1) this
          | ok cs =>
            obtain ⟨chunks, s3⟩ := cs
            simp only
            cases happ : app chunks st with
            | error e =>
              simp only
              intro hcontra
              have : normE e key (insn + 1) = .eof := by
                injection hcontra
              exact normE_ne_eof e key (insn + 1) this
            | ok st2 =>
              simp only
              exact ih st2 s3 (insn + 1) (Or.inl (Nat.succ_ne_zero insn))

/-- C9: a `Decode` call (from any decoder state, e.g. between successive
pickles of one stream) on exhausted input returns plain `io.EOF`.  Once
at least one opcode of the current pickle has been consumed, every
end-of-input is returned as `io.ErrUnexpectedEOF`: end of input at the
dispatch read (empty remaining input with `insn ≠ 0`) returns exactly
`io.ErrUnexpectedEOF`, and end of input inside any dispatched opcode
handler (the handler's reader failing with `io.EOF` or
`io.ErrUnexpectedEOF`) also returns exactly `io.ErrUnexpectedEOF`;
moreover no non-empty input ever surfaces plain `io.EOF` - so a caller
reading successive pickles from one stream can distinguish clean end of
stream from truncation. -/
theorem c9_eof_vs_unexpected :
    (∀ st : DState, decodeFrom st [] = .error .eof) ∧
    (∀ (fuel : Nat) (st : DState) (insn : Nat), insn ≠ 0 →
      decodeLoop (fuel + 1) st [] insn = .error .unexpectedEOF) ∧
    (∀ (fuel : Nat) (st : DState) (s : List Nat) (insn key : Nat)
      (reader : RdM Chunks) (app : Chunks → DState → Except Err DState),
      dispatch key = some (reader, app) →
      run reader s = .error .eof ∨ run reader s = .error .unexpectedEOF →
      decodeLoop (fuel + 1) st (key :: s) insn = .error .unexpectedEOF) ∧
    (∀ (st : DState) (B : List Nat), B ≠ [] → decodeFrom st B ≠ .error .eof) := by
  refine ⟨?_, ?_, ?_, ?_⟩
  · intro st
    rfl
  · intro fuel st insn hinsn
    rw [decodeLoop, if_neg hinsn]
  · intro fuel st s insn key reader app hdp hrun
    have hstop : key ≠ opStop := by
      intro hkey
      rw [hkey, show dispatch opStop = Option.none from rfl] at hdp
      exact Option.noConfusion hdp
    rw [decodeLoop, if_neg hstop, hdp]
    simp only []
    rcases hrun with he | he
    · rw [he]
      rfl
    · rw [he]
      rfl
  · intro st B hB
    exact decodeLoop_ne_eof (B.length + 1) st B 0 (Or.inr hB)

/-- C9 witness: the empty stream gives `io.EOF`; end of input at the
dispatch read after one consumed opcode gives `io.ErrUnexpectedEOF`; the
one-byte stream `I` (the INT handler's line read hits end of input)
gives `io.ErrUnexpectedEOF`; and the one-byte stream `N` does not give
plain `io.EOF`. -/
theorem c9_eof_vs_unexpected_witness :
    decodeFrom initState [] = .error .eof ∧
    decodeLoop 1 initState [] 1 = .error .unexpectedEOF ∧
    decodeLoop 1 initState [73] 0 = .error .unexpectedEOF ∧
    decodeFrom initState [78] ≠ .error .eof := by
  refine ⟨?_, ?_, ?_, ?_⟩
  · exact c9_eof_vs_unexpected.1 initState
  · exact c9_eof_vs_unexpected.2.1 0 initState 1 (by decide)
  · exact c9_eof_vs_unexpected.2.2.1 0 initState [] 0 73 rdLine appInt rfl
      (Or.inl rfl)
  · exact c9_eof_vs_unexpected.2.2.2 initState [78] (by simp)

/-! ## Claim C2 (amended part): truncation of an exactly-consumed pickle

The counterexample above shows the claim fails for inputs with trailing
bytes.  The amended statement requires the successful decode to consume
all of `B`; then every proper non-empty prefix yields
`io.ErrUnexpectedEOF`.  The proof factors through `run_prefix`: a
successful reader run consumes a prefix `u` of the input, succeeds the
same way on `u ++ t` for every `t`, and fails with `io.EOF` or
`io.ErrUnexpectedEOF` on every proper prefix of `u`. -/

theorem splitLine_some : ∀ {s l r : List Nat}, splitLine s = some (l, r) →
    s = l ++ 10 :: r ∧ (10 : Nat) ∉ l := by
  intro s
  induction s with
  | nil => intro l r h; simp [splitLine] at h
  | cons b s2 ih =>
    intro l r h
    rw [splitLine] at h
    by_cases hb : b = 10
    · rw [if_pos hb] at h
      injection h with h
      injection h with h1 h2
      subst h1
      subst h2
      subst hb
      exact ⟨rfl, by simp⟩
    · rw [if_neg hb] at h
      cases hsp : splitLine s2 with
      | none => rw [hsp] at h; exact Option.noConfusion h
      | some lr =>
        obtain ⟨l2, r2⟩ := lr
        rw [hsp] at h
        injection h with h
        injection h with h1 h2
        subst h1
        subst h2
        obtain ⟨ih1, ih2⟩ := ih hsp
        refine ⟨by rw [ih1]; rfl, ?_⟩
        intro hmem
        rcases List.mem_cons.mp hmem with hmem | hmem
        · exact hb hmem.symm
        · exact ih2 hmem

theorem splitLine_append : ∀ {l : List Nat}, (10 : Nat) ∉ l →
    ∀ (w : List Nat), splitLine (l ++ 10 :: w) = some (l, w) := by
  intro l
  induction l with
  | nil => intro _ w; rw [List.nil_append, splitLine, if_pos rfl]
  | cons b l2 ih =>
    intro hl w
    have hb : ¬ b = 10 := fun hb => hl (by rw [hb]; exact List.mem_cons_self _ _)
    rw [List.cons_append, splitLine, if_neg hb,
      ih (fun hm => hl (List.mem_cons_of_mem _ hm)) w]

theorem splitLine_nomem : ∀ {w : List Nat}, (10 : Nat) ∉ w →
    splitLine w = Option.none := by
  intro w
  induction w with
  | nil => intro _; rfl
  | cons b w2 ih =>
    intro hw
    have hb : ¬ b = 10 := fun hb => hw (by rw [hb]; exact List.mem_cons_self _ _)
    rw [splitLine, if_neg hb, ih (fun hm => hw (List.mem_cons_of_mem _ hm))]

theorem run_readFull_append {α : Type} (n : Nat) (kc : List Nat → RdM α)
    (x w : List Nat) (hx : x.length = n) :
    run (.readFull n kc) (x ++ w) = run (kc x) w := by
  rw [run, if_pos (by simp [hx]), ← hx, List.take_left, List.drop_left]

theorem run_readFull_short {α : Type} (n : Nat) (kc : List Nat → RdM α)
    (w : List Nat) (hw : w.length < n) :
    run (.readFull n kc) w =
      .error (if w.isEmpty then Err.eof else Err.unexpectedEOF) := by
  rw [run, if_neg (by omega)]

theorem run_copyN_append {α : Type} (n : Nat) (kc : List Nat → RdM α)
    (x w : List Nat) (hx : x.length = n) :
    run (.copyN n kc) (x ++ w) = run (kc x) w := by
  rw [run, if_pos (by simp [hx]), ← hx, List.take_left, List.drop_left]

theorem run_copyN_short {α : Type} (n : Nat) (kc : List Nat → RdM α)
    (w : List Nat) (hw : w.length < n) :
    run (.copyN n kc) w = .error .eof := by
  rw [run, if_neg (by omega)]

/-- A successful reader run consumes a prefix `u`: it returns the same
value with remainder `t` on `u ++ t` for every `t`, and every proper
prefix of `u` makes it fail with `io.EOF` or `io.ErrUnexpectedEOF`. -/
theorem run_prefix {α : Type} (a : α) (rest : List Nat) :
    ∀ (p : RdM α) (s : List Nat), run p s = .ok (a, rest) →
    ∃ u, s = u ++ rest ∧
      (∀ t, run p (u ++ t) = .ok (a, t)) ∧
      (∀ k, k < u.length →
        run p (u.take k) = .error .eof ∨
          run p (u.take k) = .error .unexpectedEOF) := by
  intro p
  induction p with
  | pure a2 =>
    intro s hrun
    rw [run] at hrun
    injection hrun with hrun
    injection hrun with h1 h2
    subst h1
    subst h2
    exact ⟨[], rfl, fun t => rfl, fun k hk => absurd hk (by simp)⟩
  | fail e =>
    intro s hrun
    rw [run] at hrun
    exact Except.noConfusion hrun
  | readByte kc ih =>
    intro s hrun
    cases s with
    | nil => rw [run] at hrun; exact Except.noConfusion hrun
    | cons b s2 =>
      rw [run] at hrun
      obtain ⟨u2, hs2, hok, herr⟩ := ih b s2 hrun
      refine ⟨b :: u2, by rw [hs2]; rfl, fun t => ?_, fun k hk => ?_⟩
      · rw [List.cons_append, run]
        exact hok t
      · cases k with
        | zero => exact Or.inl rfl
        | succ k2 =>
          rw [List.take_succ_cons, run]
          exact herr k2 (by simp at hk; omega)
  | readFull n kc ih =>
    intro s hrun
    rw [run] at hrun
    split_ifs at hrun with hn
    · obtain ⟨u2, hs2, hok, herr⟩ := ih (s.take n) (s.drop n) hrun
      have hlen : (s.take n).length = n := by rw [List.length_take]; omega
      refine ⟨s.take n ++ u2, ?_, fun t => ?_, fun k hk => ?_⟩
      · rw [List.append_assoc, ← hs2, List.take_append_drop]
      · rw [List.append_assoc, run_readFull_append n kc _ _ hlen]
        exact hok t
      · simp only [List.length_append, hlen] at hk
        by_cases hkn : k < n
        · rw [List.take_append_of_le_length (by rw [hlen]; omega),
            run_readFull_short n kc _ (by simp [List.length_take]; omega)]
          split_ifs with he
          · exact Or.inl rfl
          · exact Or.inr rfl
        · rw [List.take_append_eq_append_take,
            List.take_of_length_le (by rw [hlen]; omega),
            run_readFull_append n kc _ _ hlen, hlen]
          exact herr (k - n) (by omega)
  | copyN n kc ih =>
    intro s hrun
    rw [run] at hrun
    split_ifs at hrun with hn
    · obtain ⟨u2, hs2, hok, herr⟩ := ih (s.take n) (s.drop n) hrun
      have hlen : (s.take n).length = n := by rw [List.length_take]; omega
      refine ⟨s.take n ++ u2, ?_, fun t => ?_, fun k hk => ?_⟩
      · rw [List.append_assoc, ← hs2, List.take_append_drop]
      · rw [List.append_assoc, run_copyN_append n kc _ _ hlen]
        exact hok t
      · simp only [List.length_append, hlen] at hk
        by_cases hkn : k < n
        · rw [List.take_append_of_le_length (by rw [hlen]; omega),
            run_copyN_short n kc _ (by simp [List.length_take]; omega)]
          exact Or.inl rfl
        · rw [List.take_append_eq_append_take,
            List.take_of_length_le (by rw [hlen]; omega),
            run_copyN_append n kc _ _ hlen, hlen]
          exact herr (k - n) (by omega)
  | readLine kc ih =>
    intro s hrun
    rw [run] at hrun
    cases hsp : splitLine s with
    | none => rw [hsp] at hrun; exact Except.noConfusion hrun
    | some lr =>
      obtain ⟨l, r⟩ := lr
      rw [hsp] at hrun
      obtain ⟨hs_eq, hnl⟩ := splitLine_some hsp
      obtain ⟨u2, hr2, hok, herr⟩ := ih l r hrun
      have hassoc : ∀ t : List Nat, (l ++ 10 :: u2) ++ t = l ++ 10 :: (u2 ++ t) := by
        intro t
        simp
      refine ⟨l ++ 10 :: u2, ?_, fun t => ?_, fun k hk => ?_⟩
      · rw [hs_eq, hr2, hassoc]
      · rw [hassoc, run, splitLine_append hnl]
        exact hok t
      · simp only [List.length_append, List.length_cons] at hk
        by_cases hkl : k ≤ l.length
        · rw [List.take_append_of_le_length hkl, run,
            splitLine_nomem (fun hm => hnl (List.mem_of_mem_take hm))]
          exact Or.inl rfl
        · have hm : k - l.length = (k - l.length - 1) + 1 := by omega
          rw [List.take_append_eq_append_take,
            List.take_of_length_le (by omega), hm, List.take_succ_cons, run,
            splitLine_append hnl]
          exact herr (k - l.length - 1) (by omega)

/-- Truncating an exactly-consumed successful dispatch-loop run to a
proper prefix (non-empty unless an opcode was already consumed) always
yields `io.ErrUnexpectedEOF`, for any sufficient fuel. -/
theorem decodeLoop_trunc : ∀ (fuel : Nat) (st : DState) (s : List Nat)
    (insn : Nat) (v : Value) (st' : DState),
    decodeLoop fuel st s insn = .ok (v, st', []) →
    ∀ (k fuel2 : Nat), k < s.length → (insn ≠ 0 ∨ 0 < k) → k < fuel2 →
    decodeLoop fuel2 st (s.take k) insn = .error .unexpectedEOF := by
  intro fuel
  induction fuel with
  | zero =>
    intro st s insn v st' hdec
    simp [decodeLoop] at hdec
  | succ fuel ih =>
    intro st s insn v st' hdec k fuel2 hk hins hkf
    cases fuel2 with
    | zero => omega
    | succ f2 =>
      cases s with
      | nil => simp at hk
      | cons key s2 =>
        rw [decodeLoop] at hdec
        by_cases hstop : key = opStop
        · rw [if_pos hstop] at hdec
          split at hdec
          · exact Except.noConfusion hdec
          next v0 rest0 hpu =>
            injection hdec with hdec
            injection hdec with h1 h2
            injection h2 with h2 h3
            subst h3
            have hk0 : k = 0 := by simp at hk; omega
            subst hk0
            have hins2 : insn ≠ 0 := by
              rcases hins with hi | hi
              · exact hi
              · omega
            rw [List.take_zero, decodeLoop, if_neg hins2]
        · rw [if_neg hstop] at hdec
          split at hdec
          · exact Except.noConfusion hdec
          next reader app hdp =>
            split at hdec
            · exact Except.noConfusion hdec
            next chunks s3 hrun =>
              split at hdec
              · exact Except.noConfusion hdec
              next st2 happ =>
                cases k with
                | zero =>
                  have hins2 : insn ≠ 0 := by
                    rcases hins with hi | hi
                    · exact hi
                    · omega
                  rw [List.take_zero, decodeLoop, if_neg hins2]
                | succ k2 =>
                  rw [List.take_succ_cons, decodeLoop, if_neg hstop, hdp]
                  simp only []
                  obtain ⟨u, hs2u, hok, herr⟩ := run_prefix chunks s3 reader s2 hrun
                  simp only [List.length_cons] at hk
                  have hlen2 : s2.length = u.length + s3.length := by
                    rw [hs2u]
                    simp
                  by_cases hku : k2 < u.length
                  · have htk : s2.take k2 = u.take k2 := by
                      rw [hs2u, List.take_append_of_le_length (by omega)]
                    rw [htk]
                    rcases herr k2 hku with he | he
                    · rw [he]
                      rfl
                    · rw [he]
                      rfl
                  · have htk : s2.take k2 = u ++ s3.take (k2 - u.length) := by
                      rw [hs2u, List.take_append_eq_append_take,
                        List.take_of_length_le (by omega)]
                    rw [htk, hok (s3.take (k2 - u.length))]
                    simp only []
                    rw [happ]
                    simp only []
                    exact ih st2 s3 (insn + 1) v st' hdec (k2 - u.length) f2
                      (by omega) (Or.inl (Nat.succ_ne_zero insn)) (by omega)

/-- C2 (amended): if a fresh decoder decodes `B` successfully consuming
all of `B` (the returned unread remainder is empty, so `B` ends exactly
at the terminating STOP), then for every `k` with `0 < k < |B|`, decoding
the truncated prefix `B[:k]` returns exactly the `io.ErrUnexpectedEOF`
error - never success and never an error of a different class. -/
theorem c2_truncation_amended (B : List Nat) (v : Value) (st' : DState)
    (hdec : decodeD B = .ok (v, st', []))
    (k : Nat) (hk0 : 0 < k) (hkB : k < B.length) :
    decodeD (B.take k) = .error .unexpectedEOF := by
  have h := decodeLoop_trunc (B.length + 1) initState B 0 v st' hdec k
    ((B.take k).length + 1) hkB (Or.inr hk0)
    (by rw [List.length_take]; omega)
  exact h

/-- C2 amended witness: `I5\n.` decodes to `int64(5)` consuming all four
bytes, and its two-byte prefix `I5` decodes to `io.ErrUnexpectedEOF`. -/
theorem c2_truncation_amended_witness :
    decodeD [73, 53, 10, 46] = .ok (.int 5, ⟨[], [], 0⟩, []) ∧
    0 < 2 ∧ 2 < [73, 53, 10, 46].length ∧
    decodeD ([73, 53, 10, 46].take 2) = .error .unexpectedEOF :=
  ⟨rfl, by decide, by decide,
    c2_truncation_amended [73, 53, 10, 46] (.int 5) ⟨[], [], 0⟩ rfl 2
      (by decide) (by decide)⟩

end Ogorek
